import Mathlib

/-!
Shallow embedding and verification of the SSA-construction core of the
circomspect analyzer (`program_structure/src/static_single_assignment/mod.rs`)
and of its field-element arithmetic analysis pass
(`program_analysis/src/field_arithmetic.rs`).

Rust `&mut` state is threaded explicitly: an operation that mutates its
receiver returns the updated value.  Rust panics (`expect`, out-of-bounds
indexing) are modelled as a distinguished `panicked` outcome (or `none`).
Loops whose termination is not structural carry an explicit fuel argument;
exhausting the fuel is modelled like a panic and never happens for adequate
fuel (see the termination theorem for phi placement).
-/

namespace Circomspect

/-- Modelled from the spec: the capability contract of spec section 4.4.  The
file `static_single_assignment/traits.rs`, which declares the `SSAConfig`
trait with the `BasicBlock` and `Environment` capability operations, is not
part of the sample; the operations and their shapes are taken from the spec
and from their use sites in `mod.rs`.  `insert_ssa_variables` is the block's
own statement-rewriting operation (spec 4.4): it may fail, and it may update
both the block and the environment (it takes `&mut self` and `&mut env` in the
source).  `update_phi_statements` patches the block's phi slots using the
caller's current environment state, and `insert_phi_statement` inserts an
empty phi statement for a variable into the block. -/
structure SSAConfig where
  BasicBlock : Type
  Environment : Type
  Error : Type
  variables_written : BasicBlock → List String
  has_phi_statement : BasicBlock → String → Bool
  insert_phi_statement : BasicBlock → String → Environment → BasicBlock
  successors : BasicBlock → List Nat
  insert_ssa_variables : BasicBlock → Environment → Except Error (BasicBlock × Environment)
  update_phi_statements : BasicBlock → Environment → BasicBlock
  add_variable_scope : Environment → Environment
  remove_variable_scope : Environment → Environment

/-- Modelled from the spec: the read surface of the dominator tree that
`mod.rs` uses (`static_single_assignment/dominator_tree.rs` is not part of
the sample): the dominance frontier of a block and the dominator-tree
children of a block, both lists of block indices. -/
structure DominatorTree where
  get_dominance_frontier : Nat → List Nat
  get_dominator_successors : Nat → List Nat

/-- Outcome of a Rust computation that can return `Ok(())`, return an error
early via `?`, or panic.  A `panicked` outcome models a failed `expect`
(out-of-bounds block index), or fuel exhaustion of the fuel-indexed
recursion. -/
inductive SSAOutcome (E : Type) where
  | ok : SSAOutcome E
  | err (e : E) : SSAOutcome E
  | panicked (msg : String) : SSAOutcome E
deriving DecidableEq

/-! ### Phi placement (`insert_phi_statements`, mod.rs lines 15-47) -/

/-- Embedding of the inner loop `for var in &variables_written { ... }` of
`insert_phi_statements` (mod.rs lines 37-44), operating on frontier block `b`
(index `j`): for each variable without a phi statement in `b`, insert an
empty phi statement and push `j` onto the work list.  The work list is a Rust
`Vec` with `push`/`pop` at the end; it is modelled head-first (the head is
the next element popped), so a push is a `cons`. -/
def insertPhisForVars (cfg : SSAConfig) (env : cfg.Environment) (j : Nat) :
    List String → cfg.BasicBlock → List Nat → cfg.BasicBlock × List Nat
  | [], b, wl => (b, wl)
  | v :: rest, b, wl =>
    if cfg.has_phi_statement b v then
      insertPhisForVars cfg env j rest b wl
    else
      insertPhisForVars cfg env j rest (cfg.insert_phi_statement b v env) (j :: wl)

/-- Embedding of the loop `for frontier_index in dominance_frontier { ... }`
of `insert_phi_statements` (mod.rs lines 35-45).  Indexing
`basic_blocks[frontier_index]` panics if the index is out of range; the panic
is modelled by `none`. -/
def processFrontier (cfg : SSAConfig) (env : cfg.Environment) (vw : List String) :
    List Nat → List cfg.BasicBlock → List Nat → Option (List cfg.BasicBlock × List Nat)
  | [], blocks, wl => some (blocks, wl)
  | j :: rest, blocks, wl =>
    match blocks[j]? with
    | none => none
    | some fb =>
      let r := insertPhisForVars cfg env j vw fb wl
      processFrontier cfg env vw rest (blocks.set j r.1) r.2

/-- Embedding of the work-list loop `while let Some(current_index) =
work_list.pop()` of `insert_phi_statements` (mod.rs lines 22-46), generalized
over the position popped at each iteration: `choose fuel wl % wl.length` is
the index of the work-list element processed next.  The program itself always
pops the most recently pushed element, which is position `0` in the head-first
model; the generalization only serves to state pop-order independence.
`none` models a panic (out-of-range block index) or fuel exhaustion. -/
def insertPhiLoopAny (cfg : SSAConfig) (dt : DominatorTree) (env : cfg.Environment)
    (choose : Nat → List Nat → Nat) :
    Nat → List Nat → List cfg.BasicBlock → Option (List cfg.BasicBlock)
  | 0, _, _ => none
  | _ + 1, [], blocks => some blocks
  | fuel + 1, w :: t, blocks =>
    let wl := w :: t
    let p := choose fuel wl % wl.length
    let current := wl.getD p w
    let rest := wl.eraseIdx p
    match blocks[current]? with
    | none => none
    | some b =>
      let vw := cfg.variables_written b
      if vw.isEmpty then
        insertPhiLoopAny cfg dt env choose fuel rest blocks
      else
        match processFrontier cfg env vw (dt.get_dominance_frontier current) blocks rest with
        | none => none
        | some bw => insertPhiLoopAny cfg dt env choose fuel bw.2 bw.1

/-- Embedding of `insert_phi_statements` (mod.rs lines 15-47).  The initial
work list is `(0..basic_blocks.len()).collect()`, a `Vec` popped from the
end, i.e. `n-1` first: head-first this is `(List.range n).reverse`.  The
constant selector `0` pops the head, exactly the program's `Vec::pop`. -/
def insert_phi_statements (cfg : SSAConfig) (basic_blocks : List cfg.BasicBlock)
    (dt : DominatorTree) (env : cfg.Environment) (fuel : Nat) :
    Option (List cfg.BasicBlock) :=
  insertPhiLoopAny cfg dt env (fun _ _ => 0) fuel
    (List.range basic_blocks.length).reverse basic_blocks

/-! ### SSA renaming (`insert_ssa_variables`, mod.rs lines 55-91) -/

/-- Embedding of step 2 of `insert_ssa_variables_impl` (mod.rs lines 77-83):
`for successor_index in successors { ... update_phi_statements(env) }`.
`basic_blocks.get_mut(successor_index).expect(..)` panics on an out-of-range
successor index. -/
def patchSuccessors (cfg : SSAConfig) (env : cfg.Environment) :
    List Nat → List cfg.BasicBlock → SSAOutcome cfg.Error × List cfg.BasicBlock
  | [], blocks => (.ok, blocks)
  | s :: rest, blocks =>
    match blocks[s]? with
    | none => (.panicked "invalid block index during SSA generation", blocks)
    | some b =>
      patchSuccessors cfg env rest (blocks.set s (cfg.update_phi_statements b env))

/-- Embedding of step 3 of `insert_ssa_variables_impl` (mod.rs lines 84-89):
`for successor_index in dominator_successors { add_variable_scope;
recurse?; remove_variable_scope }`.  The `?` operator propagates a non-`Ok`
result of the recursive call immediately: in that case
`remove_variable_scope` is NOT executed and the remaining children are not
visited.  `recur` is the recursive call at one fuel level down. -/
def renameChildren (cfg : SSAConfig)
    (recur : Nat → List cfg.BasicBlock → cfg.Environment →
      SSAOutcome cfg.Error × List cfg.BasicBlock × cfg.Environment) :
    List Nat → List cfg.BasicBlock → cfg.Environment →
      SSAOutcome cfg.Error × List cfg.BasicBlock × cfg.Environment
  | [], blocks, env => (.ok, blocks, env)
  | c :: rest, blocks, env =>
    match recur c blocks (cfg.add_variable_scope env) with
    | (.ok, blocks2, env2) =>
      renameChildren cfg recur rest blocks2 (cfg.remove_variable_scope env2)
    | (.err e, blocks2, env2) => (.err e, blocks2, env2)
    | (.panicked m, blocks2, env2) => (.panicked m, blocks2, env2)

/-- Embedding of `insert_ssa_variables_impl` (mod.rs lines 64-91).  Step 1:
look up the current block (`expect` panics when the index is out of range),
rewrite its statements via the block capability (`?` propagates an error
immediately, with no other block touched), and read the successor list of the
rewritten block.  Step 2: patch the phi statements of every CFG successor
with the current environment.  Step 3: recurse into the dominator-tree
children.  The extra `Nat` is recursion fuel (the Rust recursion is bounded
by the dominator tree being a tree, which the abstract interface does not
show). -/
def insert_ssa_variables_impl (cfg : SSAConfig) (dt : DominatorTree) :
    Nat → Nat → List cfg.BasicBlock → cfg.Environment →
      SSAOutcome cfg.Error × List cfg.BasicBlock × cfg.Environment
  | 0, _, blocks, env => (.panicked "recursion fuel exhausted", blocks, env)
  | fuel + 1, current, blocks, env =>
    match blocks[current]? with
    | none => (.panicked "invalid block index during SSA generation", blocks, env)
    | some b =>
      match cfg.insert_ssa_variables b env with
      | .error e => (.err e, blocks, env)
      | .ok be =>
        let blocks2 := blocks.set current be.1
        match patchSuccessors cfg be.2 (cfg.successors be.1) blocks2 with
        | (.ok, blocks3) =>
          renameChildren cfg (insert_ssa_variables_impl cfg dt fuel)
            (dt.get_dominator_successors current) blocks3 be.2
        | (.err e, blocks3) => (.err e, blocks3, be.2)
        | (.panicked m, blocks3) => (.panicked m, blocks3, be.2)

/-- Embedding of `insert_ssa_variables` (mod.rs lines 55-62): the conversion
entry point, always starting at block 0. -/
def insert_ssa_variables (cfg : SSAConfig) (dt : DominatorTree) (fuel : Nat)
    (basic_blocks : List cfg.BasicBlock) (env : cfg.Environment) :
    SSAOutcome cfg.Error × List cfg.BasicBlock × cfg.Environment :=
  insert_ssa_variables_impl cfg dt fuel 0 basic_blocks env

/-! ### Specification-side notions for the phi-placement claims -/

/-- Blocks of the input array that write variable `x` (spec: "the set of
blocks writing v"). -/
def initialWriters (cfg : SSAConfig) (blocks : List cfg.BasicBlock) (x : String) :
    Nat → Prop :=
  fun i => ∃ bi, blocks[i]? = some bi ∧ x ∈ cfg.variables_written bi

/-- Modelled from the spec: the iterated dominance frontier of a set `W` of
blocks — the least set of blocks containing the dominance frontier of every
member of `W` and the dominance frontier of every one of its own members
("frontiers of frontiers"). -/
inductive InIDF (dt : DominatorTree) (W : Nat → Prop) : Nat → Prop where
  | base {i j : Nat} : W i → j ∈ dt.get_dominance_frontier i → InIDF dt W j
  | step {i j : Nat} : InIDF dt W i → j ∈ dt.get_dominance_frontier i → InIDF dt W j

/-- Capability law used by the phi-placement claims (spec 4.2: a block with a
phi statement for `v` "writes" `v` via the phi): every variable with a phi
statement in the block is among the block's written variables. -/
def PhisAreWritten (cfg : SSAConfig) (b : cfg.BasicBlock) : Prop :=
  ∀ x, cfg.has_phi_statement b x = true → x ∈ cfg.variables_written b

/-! ### Field-element arithmetic pass (`field_arithmetic.rs`) -/

/-- Modelled from the IR interface of `program_structure::ir` (not part of
the sample): a source file identifier. -/
abbrev FileID := Nat

/-- Modelled from the IR interface: a source location (a byte range). -/
abbrev FileLocation := Nat × Nat

/-- Modelled from the IR interface: statement and expression metadata, of
which the pass reads only the file id and location. -/
structure Meta where
  file_id : Option FileID
  file_location : FileLocation
deriving DecidableEq

/-- Report codes (only the one used by this pass is modelled). -/
inductive ReportCode where
  | FieldElementArithmetic
deriving DecidableEq

/-- Modelled from the report interface: a diagnostic report with a message, a
code, and primary source labels added by `add_primary`. -/
structure Report where
  message : String
  code : ReportCode
  primary : List (FileLocation × FileID × String)
deriving DecidableEq

/-- Constructor `Report::info`. -/
def Report.info (message : String) (code : ReportCode) : Report :=
  { message := message, code := code, primary := [] }

/-- Method `Report::add_primary`. -/
def Report.add_primary (r : Report) (loc : FileLocation) (fid : FileID)
    (label : String) : Report :=
  { r with primary := r.primary ++ [(loc, fid, label)] }

/-- Embedding of `FieldElementArithmeticWarning` (field_arithmetic.rs lines
9-12). -/
structure FieldElementArithmeticWarning where
  file_id : Option FileID
  file_location : FileLocation

/-- Embedding of `FieldElementArithmeticWarning::into_report`
(field_arithmetic.rs lines 15-29). -/
def FieldElementArithmeticWarning.into_report (w : FieldElementArithmeticWarning) :
    Report :=
  let report := Report.info
    "Field element arithmetic could overflow, which may produce unexpected results."
    ReportCode.FieldElementArithmetic
  match w.file_id with
  | some fid =>
    report.add_primary w.file_location fid "Field element arithmetic here."
  | none => report

/-- Embedding of `build_report` (field_arithmetic.rs lines 135-138). -/
def build_report (m : Meta) : Report :=
  FieldElementArithmeticWarning.into_report
    { file_id := m.file_id, file_location := m.file_location }

/-- Modelled from the IR interface: the binary operators of the circom IR
(`ExpressionInfixOpcode`); the arithmetic subset is the one matched by
field_arithmetic.rs lines 121-127. -/
inductive ExpressionInfixOpcode where
  | Mul | Div | Add | Sub | Pow | IntDiv | Mod | ShiftL | ShiftR
  | LesserEq | GreaterEq | Lesser | Greater | Eq | NotEq | BoolOr | BoolAnd
  | BitOr | BitAnd | BitXor
deriving DecidableEq

/-- Modelled from the IR interface: the unary operators of the circom IR. -/
inductive ExpressionPrefixOpcode where
  | Sub | BoolNot | Complement
deriving DecidableEq

mutual
/-- Modelled from the IR interface of `program_structure::ir` (not part of
the sample): the expression language, with exactly the variants and fields
that `visit_expression` (field_arithmetic.rs lines 74-119) matches on. -/
inductive Expression where
  | Number (m : Meta) (value : Int)
  | Variable (m : Meta) (name : String)
  | InfixOp (m : Meta) (op : ExpressionInfixOpcode) (lhe rhe : Expression)
  | PrefixOp (m : Meta) (op : ExpressionPrefixOpcode) (rhe : Expression)
  | SwitchOp (m : Meta) (cond if_true if_false : Expression)
  | Call (m : Meta) (name : String) (args : List Expression)
  | InlineArray (m : Meta) (values : List Expression)
  | Access (m : Meta) (var : String) (access : List AccessType)
  | Update (m : Meta) (var : String) (access : List AccessType) (rhe : Expression)
  | Phi (m : Meta) (args : List String)

/-- Modelled from the IR interface: an access step, either an array access
with an index expression or a component access. -/
inductive AccessType where
  | ArrayAccess (index : Expression)
  | ComponentAccess (name : String)
end

/-- Modelled from the IR interface: an argument of a `log` call. -/
inductive LogArgument where
  | Str (s : String)
  | Expr (value : Expression)

/-- Modelled from the IR interface: the statement language, with exactly the
variants and fields that `visit_statement` (field_arithmetic.rs lines 47-72)
matches on. -/
inductive Statement where
  | Declaration (m : Meta) (var : String) (dimensions : List Expression)
  | LogCall (m : Meta) (args : List LogArgument)
  | IfThenElse (m : Meta) (cond : Expression)
  | Substitution (m : Meta) (var : String) (rhe : Expression)
  | Return (m : Meta) (value : Expression)
  | Assert (m : Meta) (arg : Expression)
  | ConstraintEquality (m : Meta) (lhe rhe : Expression)

/-- Embedding of `is_arithmetic_infix_op` (field_arithmetic.rs lines
121-127); the name is shortened for the Lean development. -/
def is_arithmetic_op (op : ExpressionInfixOpcode) : Bool :=
  match op with
  | .Mul | .Div | .Add | .Sub | .Pow | .IntDiv | .Mod | .ShiftL | .ShiftR
  | .BitOr | .BitAnd | .BitXor => true
  | _ => false

/-- Embedding of `may_overflow` (field_arithmetic.rs lines 129-133). -/
def may_overflow (op : ExpressionInfixOpcode) : Bool :=
  is_arithmetic_op op &&
    ! (match op with
       | .IntDiv | .Mod | .BitOr | .BitAnd | .BitXor => true
       | _ => false)

mutual
/-- Embedding of `visit_expression` (field_arithmetic.rs lines 74-119).  The
report collection is threaded explicitly; `reports.push` appends at the end.
An `InfixOp` whose operator may overflow is reported and its operands are not
visited; otherwise both operands are visited, left first. -/
def visit_expression : Expression → List Report → List Report
  | .InfixOp m op lhe rhe, reports =>
    if may_overflow op then reports ++ [build_report m]
    else visit_expression rhe (visit_expression lhe reports)
  | .PrefixOp _ _ rhe, reports => visit_expression rhe reports
  | .SwitchOp _ cond if_true if_false, reports =>
    visit_expression if_false (visit_expression if_true (visit_expression cond reports))
  | .Call _ _ args, reports => visit_expressions args reports
  | .InlineArray _ values, reports => visit_expressions values reports
  | .Access _ _ access, reports => visit_accesses access reports
  | .Update _ _ access rhe, reports => visit_expression rhe (visit_accesses access reports)
  | .Number _ _, reports => reports
  | .Variable _ _, reports => reports
  | .Phi _ _, reports => reports

/-- Embedding of the `for`-loops of `visit_expression` over expression
lists (`Call` arguments, `InlineArray` values). -/
def visit_expressions : List Expression → List Report → List Report
  | [], reports => reports
  | e :: rest, reports => visit_expressions rest (visit_expression e reports)

/-- Embedding of the `for`-loops of `visit_expression` over access lists:
only `ArrayAccess` indices are visited. -/
def visit_accesses : List AccessType → List Report → List Report
  | [], reports => reports
  | .ArrayAccess index :: rest, reports =>
    visit_accesses rest (visit_expression index reports)
  | .ComponentAccess _ :: rest, reports => visit_accesses rest reports
end

/-- Embedding of the `for`-loop of `visit_statement` over log arguments:
only `Expr` arguments are visited. -/
def visit_log_args : List LogArgument → List Report → List Report
  | [], reports => reports
  | .Expr value :: rest, reports => visit_log_args rest (visit_expression value reports)
  | .Str _ :: rest, reports => visit_log_args rest reports

/-- Embedding of `visit_statement` (field_arithmetic.rs lines 47-72). -/
def visit_statement : Statement → List Report → List Report
  | .Declaration _ _ dimensions, reports => visit_expressions dimensions reports
  | .LogCall _ args, reports => visit_log_args args reports
  | .IfThenElse _ cond, reports => visit_expression cond reports
  | .Substitution _ _ rhe, reports => visit_expression rhe reports
  | .Return _ value, reports => visit_expression value reports
  | .Assert _ arg, reports => visit_expression arg reports
  | .ConstraintEquality _ lhe rhe, reports =>
    visit_expression rhe (visit_expression lhe reports)

/-- Embedding of `find_field_element_arithmetic` (field_arithmetic.rs lines
35-45): the CFG is its list of basic blocks, each a list of statements; the
pass visits every statement of every block in order, starting from an empty
report collection. -/
def find_field_element_arithmetic (cfg : List (List Statement)) : List Report :=
  cfg.foldl (fun reports bb => bb.foldl (fun r s => visit_statement s r) reports) []

/-! ### Concrete instantiations used by witnesses and counterexamples -/

/-- Example SSA configuration for the renamer: a block is a `Bool` saying
whether its own `insert_ssa_variables` capability fails, and the environment
is its own scope-stack depth. -/
@[reducible] def exRenameCfg : SSAConfig where
  BasicBlock := Bool
  Environment := Nat
  Error := Unit
  variables_written := fun _ => []
  has_phi_statement := fun _ _ => false
  insert_phi_statement := fun b _ _ => b
  successors := fun _ => []
  insert_ssa_variables := fun b e => if b then .error () else .ok (b, e)
  update_phi_statements := fun b _ => b
  add_variable_scope := fun e => e + 1
  remove_variable_scope := fun e => e - 1

/-- Example dominator tree for the renamer: block 1 is the only dominator-tree
child of the entry block 0. -/
def exRenameDT : DominatorTree where
  get_dominance_frontier := fun _ => []
  get_dominator_successors := fun i => if i = 0 then [1] else []

/-- Example SSA configuration exercising successor phi patching: blocks are
numbers, rewriting a block adds 100, patching a block's phi statements adds
1000 plus the current environment. -/
@[reducible] def exPatchCfg : SSAConfig where
  BasicBlock := Nat
  Environment := Nat
  Error := Unit
  variables_written := fun _ => []
  has_phi_statement := fun _ _ => false
  insert_phi_statement := fun b _ _ => b
  successors := fun b => if b = 100 then [1] else []
  insert_ssa_variables := fun b e => .ok (b + 100, e)
  update_phi_statements := fun b e => b + 1000 + e
  add_variable_scope := fun e => e + 1
  remove_variable_scope := fun e => e - 1

/-- Trivial dominator tree (no children, empty frontiers). -/
def exPatchDT : DominatorTree where
  get_dominance_frontier := fun _ => []
  get_dominator_successors := fun _ => []

/-- Concrete basic block for the phi-placement claims: the variables the
block writes and the variables it has phi statements for. -/
structure PhiBlock where
  written : List String
  phis : List String
deriving DecidableEq

/-- Example SSA configuration for phi placement over `PhiBlock`s; inserting a
phi statement for `v` records the phi and also makes the block write `v`. -/
@[reducible] def exPhiCfg : SSAConfig where
  BasicBlock := PhiBlock
  Environment := Unit
  Error := Unit
  variables_written := fun b => b.written
  has_phi_statement := fun b v => decide (v ∈ b.phis)
  insert_phi_statement := fun b v _ => { written := v :: b.written, phis := v :: b.phis }
  successors := fun _ => []
  insert_ssa_variables := fun b e => .ok (b, e)
  update_phi_statements := fun b _ => b
  add_variable_scope := fun e => e
  remove_variable_scope := fun e => e

/-- Example dominator tree: the diamond CFG 0 to 1 and 2, both to 3; the
dominance frontier of both 1 and 2 is 3 (spec section 8). -/
def exPhiDT : DominatorTree where
  get_dominance_frontier := fun i => if i = 1 then [3] else if i = 2 then [3] else []
  get_dominator_successors := fun _ => []

/-- Diamond blocks: blocks 1 and 2 write `x`, nobody has a phi statement. -/
def exDiamond : List PhiBlock :=
  [⟨[], []⟩, ⟨["x"], []⟩, ⟨["x"], []⟩, ⟨[], []⟩]

/-- Result of phi placement on the diamond: block 3 gets a phi for `x`. -/
def exDiamondOut : List PhiBlock :=
  [⟨[], []⟩, ⟨["x"], []⟩, ⟨["x"], []⟩, ⟨["x"], ["x"]⟩]

/-- Two blocks writing nothing. -/
def exNoWrites : List PhiBlock := [⟨[], []⟩, ⟨[], []⟩]

/-- Example metadata for the field-arithmetic pass. -/
def exMeta : Meta := { file_id := some 0, file_location := (0, 1) }

/-- Ghost measure for the termination argument of phi placement: the number
of variables of the universe `U` for which block `b` has no phi statement
yet (spec 4.2: the number of free phi slots, which only ever shrinks). -/
def missingPhis (cfg : SSAConfig) (U : Finset String) (b : cfg.BasicBlock) : Nat :=
  (U.filter (fun x => cfg.has_phi_statement b x = false)).card

/-- Ghost measure: total number of free phi slots over the whole block
array. -/
def missTotal (cfg : SSAConfig) (U : Finset String) (blocks : List cfg.BasicBlock) : Nat :=
  (blocks.map (missingPhis cfg U)).sum

/-! ## Theorems

First the general-purpose helper lemmas, then, for each claim, one theorem
(with its witness or counterexample where required). -/

/-! ### Helper lemmas: lists -/

theorem list_getD_mem {α : Type} (wl : List α) (p : Nat) (d : α)
    (hp : p < wl.length) : wl.getD p d ∈ wl := by
  rw [List.getD_eq_getElem wl d hp]
  exact List.getElem_mem hp

theorem list_mem_eraseIdx_or {α : Type} :
    ∀ (wl : List α) (p : Nat) (d x : α), x ∈ wl → p < wl.length →
      x = wl.getD p d ∨ x ∈ wl.eraseIdx p := by
  intro wl
  induction wl with
  | nil => intro p d x hx; simp at hx
  | cons a t ih =>
    intro p d x hx hp
    cases p with
    | zero => simpa [List.eraseIdx_cons_zero] using hx
    | succ p =>
      rcases List.mem_cons.mp hx with rfl | hxt
      · right; simp [List.eraseIdx_cons_succ]
      · rcases ih p d x hxt (by simpa using hp) with h | h
        · left; simpa [List.getD_cons_succ] using h
        · right; simp [List.eraseIdx_cons_succ, h]

theorem list_mem_of_mem_eraseIdx {α : Type} :
    ∀ (wl : List α) (p : Nat) (x : α), x ∈ wl.eraseIdx p → x ∈ wl := by
  intro wl
  induction wl with
  | nil => intro p x hx; simp [List.eraseIdx] at hx
  | cons a t ih =>
    intro p x hx
    cases p with
    | zero => exact List.mem_cons.mpr (Or.inr (by simpa [List.eraseIdx_cons_zero] using hx))
    | succ p =>
      rcases List.mem_cons.mp (by simpa [List.eraseIdx_cons_succ] using hx) with h | h
      · exact List.mem_cons.mpr (Or.inl h)
      · exact List.mem_cons.mpr (Or.inr (ih p x h))

theorem list_set_getElem?_self {α : Type} :
    ∀ (l : List α) (n : Nat) (a : α), l[n]? = some a → l.set n a = l := by
  intro l
  induction l with
  | nil => intro n a h; simp at h
  | cons x t ih =>
    intro n a h
    cases n with
    | zero => simp at h; simp [h]
    | succ n => simp at h; simp [ih n a h]

/-! ### Claims C9 and C10: the field-element arithmetic pass -/

/-- C9: when `visit_expression` encounters an arithmetic operation whose
operator may overflow, it emits exactly one report for that node and does
not visit the operand subexpressions (the result does not depend on `lhe`
and `rhe` at all, so operators nested inside a flagged operation produce no
additional reports); when the operator cannot overflow, the operands are
recursively visited, left first. -/
theorem c9_overflow_node_one_report_no_descend
    (m : Meta) (op : ExpressionInfixOpcode) (lhe rhe : Expression)
    (reports : List Report) :
    (may_overflow op = true →
      visit_expression (.InfixOp m op lhe rhe) reports = reports ++ [build_report m]) ∧
    (may_overflow op = false →
      visit_expression (.InfixOp m op lhe rhe) reports
        = visit_expression rhe (visit_expression lhe reports)) := by
  constructor <;> intro h <;> simp [visit_expression, h]

/-- Witness for C9: a multiplication nested inside an addition produces no
report of its own; the addition node alone is reported. -/
theorem c9_witness :
    may_overflow .Add = true ∧
    visit_expression
        (.InfixOp exMeta .Add
          (.InfixOp exMeta .Mul (.Number exMeta 1) (.Number exMeta 2))
          (.Number exMeta 3)) []
      = [build_report exMeta] :=
  ⟨rfl,
    (c9_overflow_node_one_report_no_descend exMeta .Add
      (.InfixOp exMeta .Mul (.Number exMeta 1) (.Number exMeta 2))
      (.Number exMeta 3) []).1 rfl⟩

/-- C10: `may_overflow` returns true exactly on Mul, Div, Add, Sub, Pow,
ShiftL, ShiftR (so IntDiv, Mod, BitOr, BitAnd, BitXor and the non-arithmetic
operators never produce a report), and `find_field_element_arithmetic`
reports a statement whose right-hand side is a binary operation over numbers
precisely when the operator may overflow. -/
theorem c10_may_overflow_exact_set :
    (∀ op : ExpressionInfixOpcode, may_overflow op = true ↔
      (op = .Mul ∨ op = .Div ∨ op = .Add ∨ op = .Sub ∨ op = .Pow ∨
        op = .ShiftL ∨ op = .ShiftR)) ∧
    (∀ (m m1 m2 m3 : Meta) (v : String) (op : ExpressionInfixOpcode) (a b : Int),
      find_field_element_arithmetic
          [[.Substitution m1 v (.InfixOp m op (.Number m2 a) (.Number m3 b))]]
        = if may_overflow op then [build_report m] else []) := by
  constructor
  · intro op
    cases op <;> simp [may_overflow, is_arithmetic_op]
  · intro m m1 m2 m3 v op a b
    cases h : may_overflow op <;>
      simp [find_field_element_arithmetic, visit_statement, visit_expression, h]

/-! ### Claims C3 and C4: error handling in the SSA renamer -/

/-- C3: when the block's own `insert_ssa_variables` capability fails, the
renamer returns that very error immediately, with no block rewritten or
patched and no recursion performed (the state is returned untouched); and
when a recursive call into a dominator-tree child fails with an error, the
surrounding child loop propagates it as is, without visiting the remaining
sibling subtrees. -/
theorem c3_error_short_circuits :
    (∀ (cfg : SSAConfig) (dt : DominatorTree) (fuel current : Nat)
        (blocks : List cfg.BasicBlock) (env : cfg.Environment)
        (b : cfg.BasicBlock) (e : cfg.Error),
      blocks[current]? = some b →
      cfg.insert_ssa_variables b env = .error e →
      insert_ssa_variables_impl cfg dt (fuel + 1) current blocks env
        = (.err e, blocks, env)) ∧
    (∀ (cfg : SSAConfig)
        (recur : Nat → List cfg.BasicBlock → cfg.Environment →
          SSAOutcome cfg.Error × List cfg.BasicBlock × cfg.Environment)
        (c : Nat) (rest : List Nat) (blocks blocks2 : List cfg.BasicBlock)
        (env env2 : cfg.Environment) (e : cfg.Error),
      recur c blocks (cfg.add_variable_scope env) = (.err e, blocks2, env2) →
      renameChildren cfg recur (c :: rest) blocks env = (.err e, blocks2, env2)) := by
  constructor
  · intro cfg dt fuel current blocks env b e hb he
    simp [insert_ssa_variables_impl, hb, he]
  · intro cfg recur c rest blocks blocks2 env env2 e h
    simp [renameChildren, h]

/-- Witness for C3: on a failing block the error is returned with the state
untouched, and a failing child aborts the sibling loop. -/
theorem c3_witness :
    insert_ssa_variables_impl exRenameCfg exRenameDT 1 0 [true] (0 : Nat)
        = (.err (), [true], (0 : Nat)) ∧
    renameChildren exRenameCfg (insert_ssa_variables_impl exRenameCfg exRenameDT 1)
        [1, 2] [false, true] (0 : Nat) = (.err (), [false, true], (1 : Nat)) :=
  ⟨(c3_error_short_circuits).1 exRenameCfg exRenameDT 0 0 [true] (0 : Nat) true () rfl rfl,
    (c3_error_short_circuits).2 exRenameCfg (insert_ssa_variables_impl exRenameCfg exRenameDT 1)
      1 [2] [false, true] [false, true] (0 : Nat) (1 : Nat) () rfl⟩

/-- C4: a block index absent from the block array is a fatal abort of the
whole conversion.  Looking up the current block at an absent index halts the
renamer at once with the panic outcome carrying the source's `expect`
message, with the state untouched; patching a successor at an absent index
panics the same way; and a panic arising inside a child recursion propagates
through the child loop unchanged, so no recovery and no continuation with
partial SSA state happens anywhere. -/
theorem c4_absent_block_index_fatal :
    (∀ (cfg : SSAConfig) (dt : DominatorTree) (fuel current : Nat)
        (blocks : List cfg.BasicBlock) (env : cfg.Environment),
      blocks[current]? = none →
      insert_ssa_variables_impl cfg dt (fuel + 1) current blocks env
        = (.panicked "invalid block index during SSA generation", blocks, env)) ∧
    (∀ (cfg : SSAConfig) (env : cfg.Environment) (s : Nat) (rest : List Nat)
        (blocks : List cfg.BasicBlock),
      blocks[s]? = none →
      patchSuccessors cfg env (s :: rest) blocks
        = (.panicked "invalid block index during SSA generation", blocks)) ∧
    (∀ (cfg : SSAConfig)
        (recur : Nat → List cfg.BasicBlock → cfg.Environment →
          SSAOutcome cfg.Error × List cfg.BasicBlock × cfg.Environment)
        (c : Nat) (rest : List Nat) (blocks blocks2 : List cfg.BasicBlock)
        (env env2 : cfg.Environment) (msg : String),
      recur c blocks (cfg.add_variable_scope env) = (.panicked msg, blocks2, env2) →
      renameChildren cfg recur (c :: rest) blocks env = (.panicked msg, blocks2, env2)) := by
  refine ⟨?_, ?_, ?_⟩
  · intro cfg dt fuel current blocks env hb
    simp [insert_ssa_variables_impl, hb]
  · intro cfg env s rest blocks hb
    simp [patchSuccessors, hb]
  · intro cfg recur c rest blocks blocks2 env env2 msg h
    simp [renameChildren, h]

/-- Witness for C4: the three abort situations at concrete inputs. -/
theorem c4_witness :
    insert_ssa_variables_impl exRenameCfg exRenameDT 1 5 [] (0 : Nat)
        = (.panicked "invalid block index during SSA generation", [], (0 : Nat)) ∧
    patchSuccessors exRenameCfg (0 : Nat) [3] [false]
        = (.panicked "invalid block index during SSA generation", [false]) ∧
    renameChildren exRenameCfg (insert_ssa_variables_impl exRenameCfg exRenameDT 1)
        [7] [false] (0 : Nat)
        = (.panicked "invalid block index during SSA generation", [false], (1 : Nat)) :=
  ⟨(c4_absent_block_index_fatal).1 exRenameCfg exRenameDT 0 5 [] (0 : Nat) rfl,
    (c4_absent_block_index_fatal).2.1 exRenameCfg (0 : Nat) 3 [] [false] rfl,
    (c4_absent_block_index_fatal).2.2 exRenameCfg
      (insert_ssa_variables_impl exRenameCfg exRenameDT 1) 7 [] [false] [false]
      (0 : Nat) (1 : Nat) "invalid block index during SSA generation" rfl⟩

/-! ### Claim C5: phi patching of every CFG successor -/

theorem patchSuccessors_length (cfg : SSAConfig) (env : cfg.Environment) :
    ∀ (succs : List Nat) (blocks : List cfg.BasicBlock),
      (patchSuccessors cfg env succs blocks).2.length = blocks.length := by
  intro succs
  induction succs with
  | nil => intro blocks; rfl
  | cons s rest ih =>
    intro blocks
    cases hb : blocks[s]? with
    | none => simp [patchSuccessors, hb]
    | some b => simp [patchSuccessors, hb, ih]

theorem patchSuccessors_ok (cfg : SSAConfig) (env : cfg.Environment) :
    ∀ (succs : List Nat) (blocks : List cfg.BasicBlock),
      (∀ u ∈ succs, u < blocks.length) →
      (patchSuccessors cfg env succs blocks).1 = .ok := by
  intro succs
  induction succs with
  | nil => intro blocks _; rfl
  | cons s rest ih =>
    intro blocks hr
    have hs : s < blocks.length := hr s (by simp)
    simp only [patchSuccessors, List.getElem?_eq_getElem hs]
    exact ih _ (by intro u hu; simpa using hr u (by simp [hu]))

theorem patchSuccessors_getElem_not_mem (cfg : SSAConfig) (env : cfg.Environment) :
    ∀ (succs : List Nat) (blocks : List cfg.BasicBlock) (t : Nat),
      t ∉ succs →
      (patchSuccessors cfg env succs blocks).2[t]? = blocks[t]? := by
  intro succs
  induction succs with
  | nil => intro blocks t _; rfl
  | cons s rest ih =>
    intro blocks t ht
    have hts : t ≠ s := fun hh => ht (by simp [hh])
    have htr : t ∉ rest := fun hh => ht (by simp [hh])
    cases hb : blocks[s]? with
    | none => simp [patchSuccessors, hb]
    | some b =>
      simp only [patchSuccessors, hb]
      rw [ih _ t htr, List.getElem?_set_ne (fun hh => hts hh.symm)]

theorem patchSuccessors_getElem_mem (cfg : SSAConfig) (env : cfg.Environment) :
    ∀ (succs : List Nat) (blocks : List cfg.BasicBlock) (s : Nat),
      succs.Nodup → (∀ u ∈ succs, u < blocks.length) → s ∈ succs →
      (patchSuccessors cfg env succs blocks).2[s]?
        = (blocks[s]?).map (fun bb => cfg.update_phi_statements bb env) := by
  intro succs
  induction succs with
  | nil => intro _ _ _ _ hs; simp at hs
  | cons u rest ih =>
    intro blocks s hnd hr hs
    have hu : u < blocks.length := hr u (by simp)
    have hbu : blocks[u]? = some blocks[u] := List.getElem?_eq_getElem hu
    rcases List.mem_cons.mp hs with rfl | hsr
    · have hnr : s ∉ rest := (List.nodup_cons.mp hnd).1
      simp only [patchSuccessors, hbu]
      rw [patchSuccessors_getElem_not_mem cfg env rest _ s hnr,
        List.getElem?_set_eq_of_lt _ hu]
      simp
    · have hne : u ≠ s := by
        rintro rfl; exact (List.nodup_cons.mp hnd).1 hsr
      simp only [patchSuccessors, hbu]
      rw [ih _ s (List.nodup_cons.mp hnd).2
        (by intro v hv; simpa using hr v (by simp [hv])) hsr,
        List.getElem?_set_ne hne]

/-- C5: at each visit of the renamer, after the current block's own
statements have been rewritten (yielding block `b2` and environment `env2`),
`update_phi_statements` is applied with the then-current environment `env2`
to every CFG successor of the rewritten block, and to nothing else, before
any recursion into dominator-tree children happens; the successor set is
read from the rewritten block, not from the dominator tree. -/
theorem c5_every_cfg_successor_patched (cfg : SSAConfig) (dt : DominatorTree)
    (fuel current : Nat) (blocks : List cfg.BasicBlock) (env env2 : cfg.Environment)
    (b b2 : cfg.BasicBlock) (s t : Nat)
    (hb : blocks[current]? = some b)
    (hcap : cfg.insert_ssa_variables b env = .ok (b2, env2))
    (hnd : (cfg.successors b2).Nodup)
    (hrange : ∀ u ∈ cfg.successors b2, u < blocks.length)
    (hs : s ∈ cfg.successors b2)
    (ht : t ∉ cfg.successors b2) :
    insert_ssa_variables_impl cfg dt (fuel + 1) current blocks env
      = renameChildren cfg (insert_ssa_variables_impl cfg dt fuel)
          (dt.get_dominator_successors current)
          (patchSuccessors cfg env2 (cfg.successors b2) (blocks.set current b2)).2 env2
    ∧ (patchSuccessors cfg env2 (cfg.successors b2) (blocks.set current b2)).2[s]?
        = ((blocks.set current b2)[s]?).map (fun bb => cfg.update_phi_statements bb env2)
    ∧ (patchSuccessors cfg env2 (cfg.successors b2) (blocks.set current b2)).2[t]?
        = (blocks.set current b2)[t]? := by
  have hrange2 : ∀ u ∈ cfg.successors b2, u < (blocks.set current b2).length := by
    intro u hu; simpa [List.length_set] using hrange u hu
  refine ⟨?_, patchSuccessors_getElem_mem cfg env2 _ _ s hnd hrange2 hs,
    patchSuccessors_getElem_not_mem cfg env2 _ _ t ht⟩
  have hok := patchSuccessors_ok cfg env2 (cfg.successors b2) (blocks.set current b2) hrange2
  simp only [insert_ssa_variables_impl, hb, hcap]
  rcases hP : patchSuccessors cfg env2 (cfg.successors b2) (blocks.set current b2)
    with ⟨o, bl⟩
  rw [hP] at hok
  simp at hok
  subst hok
  simp

/-- Witness for C5, on a concrete configuration where the rewritten entry
block has CFG successor 1 and block 0 is not a successor. -/
theorem c5_witness :
    insert_ssa_variables_impl exPatchCfg exPatchDT 1 0 [0, 7] (5 : Nat)
      = renameChildren exPatchCfg (insert_ssa_variables_impl exPatchCfg exPatchDT 0)
          (exPatchDT.get_dominator_successors 0)
          (patchSuccessors exPatchCfg (5 : Nat) (exPatchCfg.successors 100)
            (([0, 7] : List Nat).set 0 100)).2 (5 : Nat)
    ∧ (patchSuccessors exPatchCfg (5 : Nat) (exPatchCfg.successors 100)
        (([0, 7] : List Nat).set 0 100)).2[1]?
        = ((([0, 7] : List Nat).set 0 100)[1]?).map
            (fun bb => exPatchCfg.update_phi_statements bb (5 : Nat))
    ∧ (patchSuccessors exPatchCfg (5 : Nat) (exPatchCfg.successors 100)
        (([0, 7] : List Nat).set 0 100)).2[0]?
        = (([0, 7] : List Nat).set 0 100)[0]? :=
  c5_every_cfg_successor_patched exPatchCfg exPatchDT 0 0 [0, 7] (5 : Nat) (5 : Nat)
    (0 : Nat) (100 : Nat) 1 0 rfl rfl (by simp [exPatchCfg])
    (by intro u hu; simp [exPatchCfg] at hu; subst hu; decide)
    (by simp [exPatchCfg]) (by simp [exPatchCfg])

/-! ### Claim C1: scope-stack depth across the renamer -/

theorem renameChildren_ok_depth (cfg : SSAConfig) (depth : cfg.Environment → Nat)
    (Hadd : ∀ e, depth (cfg.add_variable_scope e) = depth e + 1)
    (Hrem : ∀ e, depth (cfg.remove_variable_scope e) = depth e - 1)
    (recur : Nat → List cfg.BasicBlock → cfg.Environment →
      SSAOutcome cfg.Error × List cfg.BasicBlock × cfg.Environment)
    (Hrec : ∀ c blocks env blocks2 env2,
      recur c blocks env = (.ok, blocks2, env2) → depth env2 = depth env) :
    ∀ (children : List Nat) (blocks : List cfg.BasicBlock) (env : cfg.Environment)
      (blocks2 : List cfg.BasicBlock) (env2 : cfg.Environment),
      renameChildren cfg recur children blocks env = (.ok, blocks2, env2) →
      depth env2 = depth env := by
  intro children
  induction children with
  | nil =>
    intro blocks env blocks2 env2 h
    simp [renameChildren] at h
    rw [← h.2]
  | cons c rest ih =>
    intro blocks env blocks2 env2 h
    rcases hr : recur c blocks (cfg.add_variable_scope env) with ⟨o, bl2, e2⟩
    cases o with
    | ok =>
      simp only [renameChildren, hr] at h
      have h1 : depth e2 = depth env + 1 := by
        rw [Hrec c blocks _ bl2 e2 hr, Hadd]
      have h2 := ih bl2 (cfg.remove_variable_scope e2) blocks2 env2 h
      rw [h2, Hrem]
      omega
    | err e => simp only [renameChildren, hr] at h; simp at h
    | panicked msg => simp only [renameChildren, hr] at h; simp at h

theorem impl_ok_depth (cfg : SSAConfig) (dt : DominatorTree)
    (depth : cfg.Environment → Nat)
    (Hadd : ∀ e, depth (cfg.add_variable_scope e) = depth e + 1)
    (Hrem : ∀ e, depth (cfg.remove_variable_scope e) = depth e - 1)
    (Hcap : ∀ b env b2 env2,
      cfg.insert_ssa_variables b env = .ok (b2, env2) → depth env2 = depth env) :
    ∀ (fuel current : Nat) (blocks : List cfg.BasicBlock) (env : cfg.Environment)
      (blocks2 : List cfg.BasicBlock) (env2 : cfg.Environment),
      insert_ssa_variables_impl cfg dt fuel current blocks env = (.ok, blocks2, env2) →
      depth env2 = depth env := by
  intro fuel
  induction fuel with
  | zero =>
    intro current blocks env blocks2 env2 h
    simp [insert_ssa_variables_impl] at h
  | succ fuel ih =>
    intro current blocks env blocks2 env2 h
    cases hb : blocks[current]? with
    | none => simp only [insert_ssa_variables_impl, hb] at h; simp at h
    | some b =>
      cases hcap : cfg.insert_ssa_variables b env with
      | error e => simp only [insert_ssa_variables_impl, hb, hcap] at h; simp at h
      | ok be =>
        rcases be with ⟨b2, envM⟩
        rcases hP : patchSuccessors cfg envM (cfg.successors b2) (blocks.set current b2)
          with ⟨o, bl3⟩
        cases o with
        | ok =>
          simp only [insert_ssa_variables_impl, hb, hcap, hP] at h
          have hM : depth envM = depth env := Hcap b env b2 envM hcap
          have hk := renameChildren_ok_depth cfg depth Hadd Hrem
            (insert_ssa_variables_impl cfg dt fuel)
            (fun c bl e bl' e' hh => ih c bl e bl' e' hh)
            (dt.get_dominator_successors current) bl3 envM blocks2 env2 h
          rw [hk, hM]
        | err e => simp only [insert_ssa_variables_impl, hb, hcap, hP] at h; simp at h
        | panicked msg =>
          simp only [insert_ssa_variables_impl, hb, hcap, hP] at h; simp at h

/-- C1 (amended): when `insert_ssa_variables` returns `Ok`, the
Environment's scope-stack depth equals its depth at the call (a fresh scope
is pushed before each recursion into a dominator-tree child and popped when
the child returns successfully); on an error or panic return, however, the
scopes pushed on the path to the failing block are not popped (the `?`
operator skips `remove_variable_scope`), so the depth may exceed the
pre-call depth — see the counterexample. -/
theorem c1_ok_return_restores_depth (cfg : SSAConfig) (dt : DominatorTree)
    (depth : cfg.Environment → Nat)
    (Hadd : ∀ e, depth (cfg.add_variable_scope e) = depth e + 1)
    (Hrem : ∀ e, depth (cfg.remove_variable_scope e) = depth e - 1)
    (Hcap : ∀ b env b2 env2,
      cfg.insert_ssa_variables b env = .ok (b2, env2) → depth env2 = depth env)
    (fuel : Nat) (blocks blocks2 : List cfg.BasicBlock) (env env2 : cfg.Environment)
    (h : insert_ssa_variables cfg dt fuel blocks env = (.ok, blocks2, env2)) :
    depth env2 = depth env :=
  impl_ok_depth cfg dt depth Hadd Hrem Hcap fuel 0 blocks env blocks2 env2 h

/-- Counterexample for C1 as stated: on a CFG whose dominator tree has the
failing block 1 as a child of block 0, the conversion returns an `SSAError`
with the environment at scope depth 1, not the pre-call depth 0: the scope
pushed before recursing into the failing child is never popped. -/
theorem c1_counterexample :
    (insert_ssa_variables exRenameCfg exRenameDT 5 [false, true] (0 : Nat)).1 = .err () ∧
    (insert_ssa_variables exRenameCfg exRenameDT 5 [false, true] (0 : Nat)).2.2 = 1 ∧
    (1 : Nat) ≠ 0 :=
  ⟨rfl, rfl, by decide⟩

/-- Witness for the amended C1: a successful conversion of the same shape
returns at depth 0, the depth at the call. -/
theorem c1_witness :
    (insert_ssa_variables exRenameCfg exRenameDT 5 [false, false] (0 : Nat)).2.2 = 0 := by
  have h : insert_ssa_variables exRenameCfg exRenameDT 5 [false, false] (0 : Nat)
      = (.ok, [false, false],
          (insert_ssa_variables exRenameCfg exRenameDT 5 [false, false] (0 : Nat)).2.2) := rfl
  exact c1_ok_return_restores_depth exRenameCfg exRenameDT (fun e => e)
    (fun _ => rfl) (fun _ => rfl)
    (by
      intro b env b2 env2 hcap
      cases b
      · simp [exRenameCfg] at hcap
        exact hcap.2.symm
      · simp [exRenameCfg] at hcap)
    5 [false, false] [false, false] (0 : Nat) _ h

/-! ### Helper lemmas: one step of the phi-placement work-list loop -/

theorem insertPhiLoopAny_cons (cfg : SSAConfig) (dt : DominatorTree)
    (env : cfg.Environment) (choose : Nat → List Nat → Nat) (fuel w : Nat)
    (t : List Nat) (blocks : List cfg.BasicBlock) :
    insertPhiLoopAny cfg dt env choose (fuel + 1) (w :: t) blocks
      = (match blocks[(w :: t).getD (choose fuel (w :: t) % (w :: t).length) w]? with
        | none => none
        | some b =>
          if (cfg.variables_written b).isEmpty then
            insertPhiLoopAny cfg dt env choose fuel
              ((w :: t).eraseIdx (choose fuel (w :: t) % (w :: t).length)) blocks
          else
            match processFrontier cfg env (cfg.variables_written b)
                (dt.get_dominance_frontier
                  ((w :: t).getD (choose fuel (w :: t) % (w :: t).length) w))
                blocks ((w :: t).eraseIdx (choose fuel (w :: t) % (w :: t).length)) with
            | none => none
            | some bw => insertPhiLoopAny cfg dt env choose fuel bw.2 bw.1) := rfl

/-! ### Claim C6: no writes means no phi statements -/

theorem phiLoop_no_writes (cfg : SSAConfig) (dt : DominatorTree)
    (env : cfg.Environment) (choose : Nat → List Nat → Nat) :
    ∀ (fuel : Nat) (wl : List Nat) (blocks : List cfg.BasicBlock),
      (∀ i ∈ wl, i < blocks.length) →
      (∀ b ∈ blocks, cfg.variables_written b = []) →
      wl.length < fuel →
      insertPhiLoopAny cfg dt env choose fuel wl blocks = some blocks := by
  intro fuel
  induction fuel with
  | zero => intro wl blocks _ _ hf; omega
  | succ fuel ih =>
    intro wl blocks hr hnw hf
    cases wl with
    | nil => rfl
    | cons w t =>
      rw [insertPhiLoopAny_cons]
      have hp : choose fuel (w :: t) % (w :: t).length < (w :: t).length :=
        Nat.mod_lt _ (Nat.succ_pos _)
      have hcur : (w :: t).getD (choose fuel (w :: t) % (w :: t).length) w ∈ w :: t :=
        list_getD_mem _ _ _ hp
      have hclt : (w :: t).getD (choose fuel (w :: t) % (w :: t).length) w < blocks.length :=
        hr _ hcur
      rw [List.getElem?_eq_getElem hclt]
      have hvw : (cfg.variables_written
          blocks[(w :: t).getD (choose fuel (w :: t) % (w :: t).length) w]).isEmpty = true := by
        rw [hnw _ (List.getElem_mem hclt)]; rfl
      simp only [hvw, if_true]
      apply ih
      · intro i hi
        exact hr i (list_mem_of_mem_eraseIdx _ _ i hi)
      · exact hnw
      · have := List.length_eraseIdx_add_one hp
        omega

/-- C6: on a CFG in which no block writes any variable, phi placement
terminates normally (with any fuel beyond the number of blocks), every block
popped from the work list is dropped without touching its dominance
frontier, and the block array comes back completely unchanged, so its phi
content is unchanged. -/
theorem c6_no_writes_no_phis (cfg : SSAConfig) (dt : DominatorTree)
    (env : cfg.Environment) (blocks : List cfg.BasicBlock) (fuel : Nat)
    (hnw : ∀ b ∈ blocks, cfg.variables_written b = [])
    (hfuel : blocks.length < fuel) :
    insert_phi_statements cfg blocks dt env fuel = some blocks := by
  simp only [insert_phi_statements]
  apply phiLoop_no_writes
  · intro i hi
    rw [List.mem_reverse, List.mem_range] at hi
    exact hi
  · exact hnw
  · simpa using hfuel

/-- Witness for C6: two blocks writing nothing come back unchanged. -/
theorem c6_witness :
    insert_phi_statements exPhiCfg exNoWrites exPhiDT () 3 = some exNoWrites :=
  c6_no_writes_no_phis exPhiCfg exPhiDT () exNoWrites 3 (by decide) (by decide)

/-! ### Helper lemmas: the inner per-variable phi-insertion loop

Throughout, `HW` and `HP` are the capability laws for `insert_phi_statement`
(spec 4.2 and 4.4): inserting a phi statement for `v` adds exactly `v` to the
block's written variables and exactly `v` to the variables with a phi
statement. -/

theorem insertPhisForVars_cons_pos (cfg : SSAConfig) (env : cfg.Environment)
    (j : Nat) (v : String) (rest : List String) (b : cfg.BasicBlock) (wl : List Nat)
    (h : cfg.has_phi_statement b v = true) :
    insertPhisForVars cfg env j (v :: rest) b wl
      = insertPhisForVars cfg env j rest b wl := by
  simp [insertPhisForVars, h]

theorem insertPhisForVars_cons_neg (cfg : SSAConfig) (env : cfg.Environment)
    (j : Nat) (v : String) (rest : List String) (b : cfg.BasicBlock) (wl : List Nat)
    (h : cfg.has_phi_statement b v = false) :
    insertPhisForVars cfg env j (v :: rest) b wl
      = insertPhisForVars cfg env j rest (cfg.insert_phi_statement b v env) (j :: wl) := by
  simp [insertPhisForVars, h]

theorem ipv_phi_mono (cfg : SSAConfig) (env : cfg.Environment) (j : Nat)
    (HP : ∀ b v x, cfg.has_phi_statement (cfg.insert_phi_statement b v env) x = true ↔
      x = v ∨ cfg.has_phi_statement b x = true) :
    ∀ (vars : List String) (b : cfg.BasicBlock) (wl : List Nat) (x : String),
      cfg.has_phi_statement b x = true →
      cfg.has_phi_statement (insertPhisForVars cfg env j vars b wl).1 x = true := by
  intro vars
  induction vars with
  | nil => intro b wl x hx; exact hx
  | cons v rest ih =>
    intro b wl x hx
    cases hpv : cfg.has_phi_statement b v with
    | true =>
      rw [insertPhisForVars_cons_pos cfg env j v rest b wl hpv]
      exact ih b wl x hx
    | false =>
      rw [insertPhisForVars_cons_neg cfg env j v rest b wl hpv]
      exact ih _ _ x ((HP b v x).mpr (Or.inr hx))

theorem ipv_phi_covers (cfg : SSAConfig) (env : cfg.Environment) (j : Nat)
    (HP : ∀ b v x, cfg.has_phi_statement (cfg.insert_phi_statement b v env) x = true ↔
      x = v ∨ cfg.has_phi_statement b x = true) :
    ∀ (vars : List String) (b : cfg.BasicBlock) (wl : List Nat) (v : String),
      v ∈ vars →
      cfg.has_phi_statement (insertPhisForVars cfg env j vars b wl).1 v = true := by
  intro vars
  induction vars with
  | nil => intro b wl v hv; simp at hv
  | cons u rest ih =>
    intro b wl v hv
    cases hpu : cfg.has_phi_statement b u with
    | true =>
      rw [insertPhisForVars_cons_pos cfg env j u rest b wl hpu]
      rcases List.mem_cons.mp hv with rfl | hvr
      · exact ipv_phi_mono cfg env j HP rest b wl v hpu
      · exact ih b wl v hvr
    | false =>
      rw [insertPhisForVars_cons_neg cfg env j u rest b wl hpu]
      rcases List.mem_cons.mp hv with rfl | hvr
      · exact ipv_phi_mono cfg env j HP rest _ _ v ((HP b v v).mpr (Or.inl rfl))
      · exact ih _ _ v hvr

theorem ipv_phi_new (cfg : SSAConfig) (env : cfg.Environment) (j : Nat)
    (HP : ∀ b v x, cfg.has_phi_statement (cfg.insert_phi_statement b v env) x = true ↔
      x = v ∨ cfg.has_phi_statement b x = true) :
    ∀ (vars : List String) (b : cfg.BasicBlock) (wl : List Nat) (x : String),
      cfg.has_phi_statement (insertPhisForVars cfg env j vars b wl).1 x = true →
      cfg.has_phi_statement b x = true ∨ x ∈ vars := by
  intro vars
  induction vars with
  | nil => intro b wl x hx; exact Or.inl hx
  | cons v rest ih =>
    intro b wl x hx
    cases hpv : cfg.has_phi_statement b v with
    | true =>
      rw [insertPhisForVars_cons_pos cfg env j v rest b wl hpv] at hx
      rcases ih b wl x hx with h | h
      · exact Or.inl h
      · exact Or.inr (List.mem_cons.mpr (Or.inr h))
    | false =>
      rw [insertPhisForVars_cons_neg cfg env j v rest b wl hpv] at hx
      rcases ih _ _ x hx with h | h
      · rcases (HP b v x).mp h with rfl | h2
        · exact Or.inr (List.mem_cons.mpr (Or.inl rfl))
        · exact Or.inl h2
      · exact Or.inr (List.mem_cons.mpr (Or.inr h))

theorem ipv_written_new (cfg : SSAConfig) (env : cfg.Environment) (j : Nat)
    (HW : ∀ b v x, x ∈ cfg.variables_written (cfg.insert_phi_statement b v env) ↔
      x = v ∨ x ∈ cfg.variables_written b) :
    ∀ (vars : List String) (b : cfg.BasicBlock) (wl : List Nat) (x : String),
      x ∈ cfg.variables_written (insertPhisForVars cfg env j vars b wl).1 →
      x ∈ cfg.variables_written b ∨ x ∈ vars := by
  intro vars
  induction vars with
  | nil => intro b wl x hx; exact Or.inl hx
  | cons v rest ih =>
    intro b wl x hx
    cases hpv : cfg.has_phi_statement b v with
    | true =>
      rw [insertPhisForVars_cons_pos cfg env j v rest b wl hpv] at hx
      rcases ih b wl x hx with h | h
      · exact Or.inl h
      · exact Or.inr (List.mem_cons.mpr (Or.inr h))
    | false =>
      rw [insertPhisForVars_cons_neg cfg env j v rest b wl hpv] at hx
      rcases ih _ _ x hx with h | h
      · rcases (HW b v x).mp h with rfl | h2
        · exact Or.inr (List.mem_cons.mpr (Or.inl rfl))
        · exact Or.inl h2
      · exact Or.inr (List.mem_cons.mpr (Or.inr h))

theorem ipv_written_mono (cfg : SSAConfig) (env : cfg.Environment) (j : Nat)
    (HW : ∀ b v x, x ∈ cfg.variables_written (cfg.insert_phi_statement b v env) ↔
      x = v ∨ x ∈ cfg.variables_written b) :
    ∀ (vars : List String) (b : cfg.BasicBlock) (wl : List Nat) (x : String),
      x ∈ cfg.variables_written b →
      x ∈ cfg.variables_written (insertPhisForVars cfg env j vars b wl).1 := by
  intro vars
  induction vars with
  | nil => intro b wl x hx; exact hx
  | cons v rest ih =>
    intro b wl x hx
    cases hpv : cfg.has_phi_statement b v with
    | true =>
      rw [insertPhisForVars_cons_pos cfg env j v rest b wl hpv]
      exact ih b wl x hx
    | false =>
      rw [insertPhisForVars_cons_neg cfg env j v rest b wl hpv]
      exact ih _ _ x ((HW b v x).mpr (Or.inr hx))

theorem ipv_wl_mono (cfg : SSAConfig) (env : cfg.Environment) (j : Nat) :
    ∀ (vars : List String) (b : cfg.BasicBlock) (wl : List Nat) (i : Nat),
      i ∈ wl → i ∈ (insertPhisForVars cfg env j vars b wl).2 := by
  intro vars
  induction vars with
  | nil => intro b wl i hi; exact hi
  | cons v rest ih =>
    intro b wl i hi
    cases hpv : cfg.has_phi_statement b v with
    | true =>
      rw [insertPhisForVars_cons_pos cfg env j v rest b wl hpv]
      exact ih b wl i hi
    | false =>
      rw [insertPhisForVars_cons_neg cfg env j v rest b wl hpv]
      exact ih _ _ i (List.mem_cons.mpr (Or.inr hi))

theorem ipv_wl_new (cfg : SSAConfig) (env : cfg.Environment) (j : Nat) :
    ∀ (vars : List String) (b : cfg.BasicBlock) (wl : List Nat) (i : Nat),
      i ∈ (insertPhisForVars cfg env j vars b wl).2 → i = j ∨ i ∈ wl := by
  intro vars
  induction vars with
  | nil => intro b wl i hi; exact Or.inr hi
  | cons v rest ih =>
    intro b wl i hi
    cases hpv : cfg.has_phi_statement b v with
    | true =>
      rw [insertPhisForVars_cons_pos cfg env j v rest b wl hpv] at hi
      exact ih b wl i hi
    | false =>
      rw [insertPhisForVars_cons_neg cfg env j v rest b wl hpv] at hi
      rcases ih _ _ i hi with h | h
      · exact Or.inl h
      · rcases List.mem_cons.mp h with h2 | h2
        · exact Or.inl h2
        · exact Or.inr h2

theorem ipv_written_pushed (cfg : SSAConfig) (env : cfg.Environment) (j : Nat)
    (HW : ∀ b v x, x ∈ cfg.variables_written (cfg.insert_phi_statement b v env) ↔
      x = v ∨ x ∈ cfg.variables_written b) :
    ∀ (vars : List String) (b : cfg.BasicBlock) (wl : List Nat) (x : String),
      x ∈ cfg.variables_written (insertPhisForVars cfg env j vars b wl).1 →
      x ∈ cfg.variables_written b ∨ j ∈ (insertPhisForVars cfg env j vars b wl).2 := by
  intro vars
  induction vars with
  | nil => intro b wl x hx; exact Or.inl hx
  | cons v rest ih =>
    intro b wl x hx
    cases hpv : cfg.has_phi_statement b v with
    | true =>
      rw [insertPhisForVars_cons_pos cfg env j v rest b wl hpv] at hx ⊢
      exact ih b wl x hx
    | false =>
      rw [insertPhisForVars_cons_neg cfg env j v rest b wl hpv] at hx ⊢
      rcases ih _ _ x hx with h | h
      · rcases (HW b v x).mp h with rfl | h2
        · exact Or.inr (ipv_wl_mono cfg env j rest _ _ j (List.mem_cons.mpr (Or.inl rfl)))
        · exact Or.inl h2
      · exact Or.inr h

theorem ipv_phis_written (cfg : SSAConfig) (env : cfg.Environment) (j : Nat)
    (HW : ∀ b v x, x ∈ cfg.variables_written (cfg.insert_phi_statement b v env) ↔
      x = v ∨ x ∈ cfg.variables_written b)
    (HP : ∀ b v x, cfg.has_phi_statement (cfg.insert_phi_statement b v env) x = true ↔
      x = v ∨ cfg.has_phi_statement b x = true) :
    ∀ (vars : List String) (b : cfg.BasicBlock) (wl : List Nat),
      PhisAreWritten cfg b →
      PhisAreWritten cfg (insertPhisForVars cfg env j vars b wl).1 := by
  intro vars
  induction vars with
  | nil => intro b wl h; exact h
  | cons v rest ih =>
    intro b wl h
    cases hpv : cfg.has_phi_statement b v with
    | true =>
      rw [insertPhisForVars_cons_pos cfg env j v rest b wl hpv]
      exact ih b wl h
    | false =>
      rw [insertPhisForVars_cons_neg cfg env j v rest b wl hpv]
      apply ih
      intro x hx
      rcases (HP b v x).mp hx with rfl | h2
      · exact (HW b x x).mpr (Or.inl rfl)
      · exact (HW b v x).mpr (Or.inr (h x h2))

/-! ### Helper lemmas: the dominance-frontier loop -/

theorem processFrontier_cons (cfg : SSAConfig) (env : cfg.Environment)
    (vw : List String) (j : Nat) (rest : List Nat) (blocks : List cfg.BasicBlock)
    (wl : List Nat) (fb : cfg.BasicBlock) (h : blocks[j]? = some fb) :
    processFrontier cfg env vw (j :: rest) blocks wl
      = processFrontier cfg env vw rest
          (blocks.set j (insertPhisForVars cfg env j vw fb wl).1)
          (insertPhisForVars cfg env j vw fb wl).2 := by
  simp [processFrontier, h]

theorem processFrontier_spec (cfg : SSAConfig) (env : cfg.Environment)
    (HW : ∀ b v x, x ∈ cfg.variables_written (cfg.insert_phi_statement b v env) ↔
      x = v ∨ x ∈ cfg.variables_written b)
    (HP : ∀ b v x, cfg.has_phi_statement (cfg.insert_phi_statement b v env) x = true ↔
      x = v ∨ cfg.has_phi_statement b x = true)
    (vw : List String) :
    ∀ (fr : List Nat) (blocks : List cfg.BasicBlock) (wl : List Nat),
      (∀ j ∈ fr, j < blocks.length) →
      ∃ blocks2 wl2,
        processFrontier cfg env vw fr blocks wl = some (blocks2, wl2) ∧
        blocks2.length = blocks.length ∧
        (∀ i, i ∈ wl → i ∈ wl2) ∧
        (∀ i, i ∈ wl2 → i ∈ wl ∨ i ∈ fr) ∧
        (∀ i bi, blocks[i]? = some bi → ∃ bi2, blocks2[i]? = some bi2 ∧
          (∀ x, cfg.has_phi_statement bi x = true → cfg.has_phi_statement bi2 x = true) ∧
          (∀ x, x ∈ cfg.variables_written bi → x ∈ cfg.variables_written bi2) ∧
          (∀ x, x ∈ cfg.variables_written bi2 → x ∈ cfg.variables_written bi ∨ i ∈ wl2) ∧
          (∀ x, x ∈ cfg.variables_written bi2 → x ∈ cfg.variables_written bi ∨ x ∈ vw) ∧
          (∀ x, cfg.has_phi_statement bi2 x = true →
            cfg.has_phi_statement bi x = true ∨ x ∈ vw) ∧
          (i ∉ fr → bi2 = bi) ∧
          (PhisAreWritten cfg bi → PhisAreWritten cfg bi2)) ∧
        (∀ j, j ∈ fr → ∀ v, v ∈ vw →
          ∃ bj, blocks2[j]? = some bj ∧ cfg.has_phi_statement bj v = true) := by
  intro fr
  induction fr with
  | nil =>
    intro blocks wl _
    refine ⟨blocks, wl, rfl, rfl, fun i h => h, fun i h => Or.inl h, ?_, ?_⟩
    · intro i bi hbi
      exact ⟨bi, hbi, fun x h => h, fun x h => h, fun x h => Or.inl h,
        fun x h => Or.inl h, fun x h => Or.inl h, fun _ => rfl, fun h => h⟩
    · intro j hj; simp at hj
  | cons j rest ih =>
    intro blocks wl hr
    have hj : j < blocks.length := hr j (by simp)
    have hbj : blocks[j]? = some blocks[j] := List.getElem?_eq_getElem hj
    obtain ⟨blocks2, wl2, heq, hlen, hwlmono, hwlnew, hidx, hcov⟩ :=
      ih (blocks.set j (insertPhisForVars cfg env j vw blocks[j] wl).1)
        (insertPhisForVars cfg env j vw blocks[j] wl).2
        (by intro u hu; simpa [List.length_set] using hr u (by simp [hu]))
    refine ⟨blocks2, wl2, ?_, ?_, ?_, ?_, ?_, ?_⟩
    · rw [processFrontier_cons cfg env vw j rest blocks wl blocks[j] hbj]
      exact heq
    · rw [hlen, List.length_set]
    · intro i hi
      exact hwlmono i (ipv_wl_mono cfg env j vw blocks[j] wl i hi)
    · intro i hi
      rcases hwlnew i hi with h | h
      · rcases ipv_wl_new cfg env j vw blocks[j] wl i h with h2 | h2
        · exact Or.inr (by simp [h2])
        · exact Or.inl h2
      · exact Or.inr (by simp [h])
    · intro i bi hbi
      by_cases hij : i = j
      · subst hij
        have hbieq : bi = blocks[i] := by
          rw [hbj] at hbi; exact (Option.some.inj hbi).symm
        subst hbieq
        obtain ⟨bi2, hbi2, hphimono, hwmono, hwnewwl, hwnewvw, hphinew, _hunch, hPW⟩ :=
          hidx i (insertPhisForVars cfg env i vw blocks[i] wl).1
            (List.getElem?_set_eq_of_lt _ hj)
        refine ⟨bi2, hbi2, ?_, ?_, ?_, ?_, ?_, ?_, ?_⟩
        · intro x hx
          exact hphimono x (ipv_phi_mono cfg env i HP vw blocks[i] wl x hx)
        · intro x hx
          exact hwmono x (ipv_written_mono cfg env i HW vw blocks[i] wl x hx)
        · intro x hx
          rcases hwnewwl x hx with h | h
          · rcases ipv_written_pushed cfg env i HW vw blocks[i] wl x h with h2 | h2
            · exact Or.inl h2
            · exact Or.inr (hwlmono i h2)
          · exact Or.inr h
        · intro x hx
          rcases hwnewvw x hx with h | h
          · exact ipv_written_new cfg env i HW vw blocks[i] wl x h
          · exact Or.inr h
        · intro x hx
          rcases hphinew x hx with h | h
          · exact ipv_phi_new cfg env i HP vw blocks[i] wl x h
          · exact Or.inr h
        · intro hn
          exact absurd (List.mem_cons.mpr (Or.inl rfl)) hn
        · intro h
          exact hPW (ipv_phis_written cfg env i HW HP vw blocks[i] wl h)
      · have hset : (blocks.set j (insertPhisForVars cfg env j vw blocks[j] wl).1)[i]?
            = blocks[i]? := List.getElem?_set_ne (fun hh => hij hh.symm)
        obtain ⟨bi2, hbi2, hphimono, hwmono, hwnewwl, hwnewvw, hphinew, hunch, hPW⟩ :=
          hidx i bi (by rw [hset]; exact hbi)
        refine ⟨bi2, hbi2, hphimono, hwmono, hwnewwl, hwnewvw, hphinew, ?_, hPW⟩
        intro hn
        exact hunch (fun hr2 => hn (List.mem_cons.mpr (Or.inr hr2)))
    · intro j' hj' v hv
      rcases List.mem_cons.mp hj' with rfl | hj'r
      · obtain ⟨bj2, hbj2, hphimono, _, _, _, _, _, _⟩ :=
          hidx j' (insertPhisForVars cfg env j' vw blocks[j'] wl).1
            (List.getElem?_set_eq_of_lt _ hj)
        exact ⟨bj2, hbj2,
          hphimono v (ipv_phi_covers cfg env j' HP vw blocks[j'] wl v hv)⟩
      · exact hcov j' hj'r v hv

/-! ### Helper lemmas: the work-list loop invariant -/

theorem insertPhiLoopAny_cons_none (cfg : SSAConfig) (dt : DominatorTree)
    (env : cfg.Environment) (choose : Nat → List Nat → Nat) (fuel w : Nat)
    (t : List Nat) (blocks : List cfg.BasicBlock)
    (hb : blocks[(w :: t).getD (choose fuel (w :: t) % (w :: t).length) w]? = none) :
    insertPhiLoopAny cfg dt env choose (fuel + 1) (w :: t) blocks = none := by
  rw [insertPhiLoopAny_cons, hb]

theorem insertPhiLoopAny_cons_some (cfg : SSAConfig) (dt : DominatorTree)
    (env : cfg.Environment) (choose : Nat → List Nat → Nat) (fuel w : Nat)
    (t : List Nat) (blocks : List cfg.BasicBlock) (b : cfg.BasicBlock)
    (hb : blocks[(w :: t).getD (choose fuel (w :: t) % (w :: t).length) w]? = some b) :
    insertPhiLoopAny cfg dt env choose (fuel + 1) (w :: t) blocks
      = if (cfg.variables_written b).isEmpty then
          insertPhiLoopAny cfg dt env choose fuel
            ((w :: t).eraseIdx (choose fuel (w :: t) % (w :: t).length)) blocks
        else
          match processFrontier cfg env (cfg.variables_written b)
              (dt.get_dominance_frontier
                ((w :: t).getD (choose fuel (w :: t) % (w :: t).length) w))
              blocks ((w :: t).eraseIdx (choose fuel (w :: t) % (w :: t).length)) with
          | none => none
          | some bw => insertPhiLoopAny cfg dt env choose fuel bw.2 bw.1 := by
  rw [insertPhiLoopAny_cons, hb]

theorem phiLoop_invariant (cfg : SSAConfig) (dt : DominatorTree)
    (env : cfg.Environment) (choose : Nat → List Nat → Nat)
    (HW : ∀ b v x, x ∈ cfg.variables_written (cfg.insert_phi_statement b v env) ↔
      x = v ∨ x ∈ cfg.variables_written b)
    (HP : ∀ b v x, cfg.has_phi_statement (cfg.insert_phi_statement b v env) x = true ↔
      x = v ∨ cfg.has_phi_statement b x = true)
    (N : Nat)
    (Hfr : ∀ i j, j ∈ dt.get_dominance_frontier i → j < N) :
    ∀ (fuel : Nat) (wl : List Nat) (blocks final : List cfg.BasicBlock),
      blocks.length = N →
      (∀ (i : Nat) (bi : cfg.BasicBlock), blocks[i]? = some bi → PhisAreWritten cfg bi) →
      (∀ (i : Nat) (bi : cfg.BasicBlock) (x : String) (j : Nat),
        blocks[i]? = some bi → x ∈ cfg.variables_written bi →
        j ∈ dt.get_dominance_frontier i →
        i ∈ wl ∨ ∃ bj, blocks[j]? = some bj ∧ cfg.has_phi_statement bj x = true) →
      insertPhiLoopAny cfg dt env choose fuel wl blocks = some final →
      final.length = N ∧
      (∀ (i : Nat) (bi : cfg.BasicBlock), final[i]? = some bi → PhisAreWritten cfg bi) ∧
      (∀ (i : Nat) (bi : cfg.BasicBlock) (x : String) (j : Nat),
        final[i]? = some bi → x ∈ cfg.variables_written bi →
        j ∈ dt.get_dominance_frontier i →
        ∃ bj, final[j]? = some bj ∧ cfg.has_phi_statement bj x = true) ∧
      (∀ (i : Nat) (bi : cfg.BasicBlock), blocks[i]? = some bi →
        ∃ bi2, final[i]? = some bi2 ∧
        (∀ x, x ∈ cfg.variables_written bi → x ∈ cfg.variables_written bi2) ∧
        (∀ x, cfg.has_phi_statement bi x = true → cfg.has_phi_statement bi2 x = true)) := by
  intro fuel
  induction fuel with
  | zero => intro wl blocks final _ _ _ h; simp [insertPhiLoopAny] at h
  | succ fuel ih =>
    intro wl blocks final hlen hPW hINV h
    cases wl with
    | nil =>
      have hbf : blocks = final := by simpa [insertPhiLoopAny] using h
      subst hbf
      refine ⟨hlen, hPW, ?_, ?_⟩
      · intro i bi x j hbi hx hj
        rcases hINV i bi x j hbi hx hj with hin | hdone
        · simp at hin
        · exact hdone
      · intro i bi hbi; exact ⟨bi, hbi, fun x hh => hh, fun x hh => hh⟩
    | cons w t =>
      have hplt : choose fuel (w :: t) % (w :: t).length < (w :: t).length :=
        Nat.mod_lt _ (Nat.succ_pos _)
      set cur := (w :: t).getD (choose fuel (w :: t) % (w :: t).length) w with hcurdef
      set rest := (w :: t).eraseIdx (choose fuel (w :: t) % (w :: t).length) with hrestdef
      have hcmem : cur ∈ w :: t := list_getD_mem _ _ _ hplt
      have hsplit : ∀ i, i ∈ w :: t → i = cur ∨ i ∈ rest := fun i hi =>
        list_mem_eraseIdx_or (w :: t) (choose fuel (w :: t) % (w :: t).length) w i hi hplt
      cases hb : blocks[cur]? with
      | none =>
        rw [insertPhiLoopAny_cons_none cfg dt env choose fuel w t blocks hb] at h
        simp at h
      | some b =>
        rw [insertPhiLoopAny_cons_some cfg dt env choose fuel w t blocks b hb] at h
        cases hvw : (cfg.variables_written b).isEmpty with
        | true =>
          rw [if_pos hvw] at h
          have hINV2 : ∀ i bi x j, blocks[i]? = some bi → x ∈ cfg.variables_written bi →
              j ∈ dt.get_dominance_frontier i →
              i ∈ rest ∨ ∃ bj, blocks[j]? = some bj ∧ cfg.has_phi_statement bj x = true := by
            intro i bi x j hbi hx hj
            rcases hINV i bi x j hbi hx hj with hin | hdone
            · rcases hsplit i hin with hic | hirest
              · subst hic
                have hbe : bi = b := by
                  rw [hb] at hbi; exact (Option.some.inj hbi).symm
                subst hbe
                rw [List.isEmpty_iff.mp hvw] at hx
                simp at hx
              · exact Or.inl hirest
            · exact Or.inr hdone
          exact ih rest blocks final hlen hPW hINV2 h
        | false =>
          rw [if_neg (by simp [hvw])] at h
          obtain ⟨blocks2, wl2, hPF, hlen2, hwlmono, hwlnew, hidx, hcov⟩ :=
            processFrontier_spec cfg env HW HP (cfg.variables_written b)
              (dt.get_dominance_frontier cur) blocks rest
              (by intro u hu; rw [hlen]; exact Hfr cur u hu)
          rw [hPF] at h
          have h2 : insertPhiLoopAny cfg dt env choose fuel wl2 blocks2 = some final := h
          have hlen2' : blocks2.length = N := by rw [hlen2, hlen]
          have hPW2 : ∀ (i : Nat) (bi2 : cfg.BasicBlock), blocks2[i]? = some bi2 → PhisAreWritten cfg bi2 := by
            intro i bi2 hbi2
            obtain ⟨hlt2, _⟩ := List.getElem?_eq_some.mp hbi2
            have hiN : i < blocks.length := by rw [← hlen2]; exact hlt2
            have hbi : blocks[i]? = some blocks[i] := List.getElem?_eq_getElem hiN
            obtain ⟨bi2', hbi2', _, _, _, _, _, _, hPWp⟩ := hidx i blocks[i] hbi
            have hbe : bi2' = bi2 := by
              rw [hbi2'] at hbi2; exact Option.some.inj hbi2
            subst hbe
            exact hPWp (hPW i blocks[i] hbi)
          have hINV2 : ∀ (i : Nat) (bi2 : cfg.BasicBlock) (x : String) (j : Nat), blocks2[i]? = some bi2 →
              x ∈ cfg.variables_written bi2 → j ∈ dt.get_dominance_frontier i →
              i ∈ wl2 ∨ ∃ bj, blocks2[j]? = some bj ∧ cfg.has_phi_statement bj x = true := by
            intro i bi2 x j hbi2 hx hj
            obtain ⟨hlt2, _⟩ := List.getElem?_eq_some.mp hbi2
            have hiN : i < blocks.length := by rw [← hlen2]; exact hlt2
            have hbi : blocks[i]? = some blocks[i] := List.getElem?_eq_getElem hiN
            obtain ⟨bi2', hbi2', _, _, hwnewwl, _, _, _, _⟩ := hidx i blocks[i] hbi
            have hbe : bi2' = bi2 := by
              rw [hbi2'] at hbi2; exact Option.some.inj hbi2
            subst hbe
            rcases hwnewwl x hx with hxold | hiwl2
            · rcases hINV i blocks[i] x j hbi hxold hj with hin | hdone
              · rcases hsplit i hin with hic | hirest
                · subst hic
                  have hbb : blocks[cur] = b := by
                    rw [hb] at hbi; exact (Option.some.inj hbi).symm
                  rw [hbb] at hxold
                  exact Or.inr (hcov j hj x hxold)
                · exact Or.inl (hwlmono i hirest)
              · obtain ⟨bj, hbj, hbjphi⟩ := hdone
                obtain ⟨bj2, hbj2, hphimonoJ, _, _, _, _, _, _⟩ := hidx j bj hbj
                exact Or.inr ⟨bj2, hbj2, hphimonoJ x hbjphi⟩
            · exact Or.inl hiwl2
          obtain ⟨hlenF, hPWF, hINVF, hmonoF⟩ := ih wl2 blocks2 final hlen2' hPW2 hINV2 h2
          refine ⟨hlenF, hPWF, hINVF, ?_⟩
          intro i bi hbi
          obtain ⟨bi2, hbi2, hphim, hwm, _, _, _, _, _⟩ := hidx i bi hbi
          obtain ⟨bi3, hbi3, hwm2, hphim2⟩ := hmonoF i bi2 hbi2
          exact ⟨bi3, hbi3, fun x hx => hwm2 x (hwm x hx),
            fun x hx => hphim2 x (hphim x hx)⟩

/-! ### Claim C2: phi statements cover the iterated dominance frontier -/

theorem phiLoop_idf_covered (cfg : SSAConfig) (dt : DominatorTree)
    (env : cfg.Environment) (choose : Nat → List Nat → Nat)
    (HW : ∀ b v x, x ∈ cfg.variables_written (cfg.insert_phi_statement b v env) ↔
      x = v ∨ x ∈ cfg.variables_written b)
    (HP : ∀ b v x, cfg.has_phi_statement (cfg.insert_phi_statement b v env) x = true ↔
      x = v ∨ cfg.has_phi_statement b x = true)
    (N : Nat)
    (Hfr : ∀ i j, j ∈ dt.get_dominance_frontier i → j < N)
    (fuel : Nat) (wl : List Nat) (blocks final : List cfg.BasicBlock)
    (hlen : blocks.length = N)
    (hPW : ∀ (i : Nat) (bi : cfg.BasicBlock), blocks[i]? = some bi → PhisAreWritten cfg bi)
    (hINV : ∀ (i : Nat) (bi : cfg.BasicBlock) (x : String) (j : Nat),
      blocks[i]? = some bi → x ∈ cfg.variables_written bi →
      j ∈ dt.get_dominance_frontier i →
      i ∈ wl ∨ ∃ bj, blocks[j]? = some bj ∧ cfg.has_phi_statement bj x = true)
    (hrun : insertPhiLoopAny cfg dt env choose fuel wl blocks = some final) :
    ∀ (x : String) (j : Nat), InIDF dt (initialWriters cfg blocks x) j →
      ∃ bj, final[j]? = some bj ∧ cfg.has_phi_statement bj x = true := by
  obtain ⟨_hlenF, hPWF, hINVF, hmonoF⟩ :=
    phiLoop_invariant cfg dt env choose HW HP N Hfr fuel wl blocks final hlen hPW hINV hrun
  intro x j hidf
  induction hidf with
  | base hWi hj =>
    obtain ⟨bi, hbi, hxw⟩ := hWi
    obtain ⟨bi2, hbi2, hwm, _⟩ := hmonoF _ bi hbi
    exact hINVF _ bi2 x _ hbi2 (hwm x hxw) hj
  | step _hidf hj ihx =>
    obtain ⟨bj0, hbj0, hphi⟩ := ihx
    exact hINVF _ bj0 x _ hbj0 (hPWF _ bj0 hbj0 x hphi) hj

/-- C2: after `insert_phi_statements` returns normally, every block `j` in
the iterated dominance frontier of the set of blocks writing `x` (in the
input block array) has a phi statement for `x`: the work-list fixpoint
re-adds a frontier block whenever a new phi is inserted into it (the phi
makes the block itself a writer), so phi statements propagate through
frontiers of frontiers. -/
theorem c2_phi_on_iterated_dominance_frontier (cfg : SSAConfig) (dt : DominatorTree)
    (env : cfg.Environment) (blocks final : List cfg.BasicBlock) (fuel : Nat)
    (HW : ∀ b v x, x ∈ cfg.variables_written (cfg.insert_phi_statement b v env) ↔
      x = v ∨ x ∈ cfg.variables_written b)
    (HP : ∀ b v x, cfg.has_phi_statement (cfg.insert_phi_statement b v env) x = true ↔
      x = v ∨ cfg.has_phi_statement b x = true)
    (Hfr : ∀ i j, j ∈ dt.get_dominance_frontier i → j < blocks.length)
    (HPW : ∀ (i : Nat) (bi : cfg.BasicBlock), blocks[i]? = some bi → PhisAreWritten cfg bi)
    (hrun : insert_phi_statements cfg blocks dt env fuel = some final)
    (x : String) (j : Nat)
    (hidf : InIDF dt (initialWriters cfg blocks x) j) :
    ∃ bj, final[j]? = some bj ∧ cfg.has_phi_statement bj x = true := by
  have hrun2 : insertPhiLoopAny cfg dt env (fun _ _ => 0) fuel
      (List.range blocks.length).reverse blocks = some final := hrun
  refine phiLoop_idf_covered cfg dt env (fun _ _ => 0) HW HP blocks.length Hfr fuel
    (List.range blocks.length).reverse blocks final rfl HPW ?_ hrun2 x j hidf
  intro i bi _x _j hbi _hx _hj
  obtain ⟨hlt, _⟩ := List.getElem?_eq_some.mp hbi
  exact Or.inl (by rw [List.mem_reverse, List.mem_range]; exact hlt)

/-! ### Capability laws of the concrete phi configuration -/

theorem exPhiCfg_HW : ∀ (b : PhiBlock) (v x : String),
    x ∈ exPhiCfg.variables_written (exPhiCfg.insert_phi_statement b v ()) ↔
    x = v ∨ x ∈ exPhiCfg.variables_written b := by
  intro b v x
  simp [exPhiCfg]

theorem exPhiCfg_HP : ∀ (b : PhiBlock) (v x : String),
    exPhiCfg.has_phi_statement (exPhiCfg.insert_phi_statement b v ()) x = true ↔
    x = v ∨ exPhiCfg.has_phi_statement b x = true := by
  intro b v x
  simp [exPhiCfg]

theorem exPhiDT_Hfr : ∀ (i j : Nat),
    j ∈ exPhiDT.get_dominance_frontier i → j < exDiamond.length := by
  intro i j h
  by_cases h1 : i = 1
  · simp [exPhiDT, h1] at h
    subst h; decide
  · by_cases h2 : i = 2
    · simp [exPhiDT, h1, h2] at h
      subst h; decide
    · simp [exPhiDT, h1, h2] at h

theorem exDiamond_HPW : ∀ (i : Nat) (bi : PhiBlock),
    exDiamond[i]? = some bi → PhisAreWritten exPhiCfg bi := by
  intro i bi hbi
  have hmem : bi ∈ exDiamond := List.getElem?_mem hbi
  simp [exDiamond] at hmem
  rcases hmem with rfl | rfl | rfl | rfl <;> intro x hx <;> simp [exPhiCfg] at hx

/-- Witness for C2: on the diamond CFG, block 3 (the join, in the iterated
dominance frontier of the writers 1 and 2 of `x`) ends up with a phi
statement for `x`. -/
theorem c2_witness :
    ∃ bj, exDiamondOut[3]? = some bj ∧ exPhiCfg.has_phi_statement bj "x" = true :=
  c2_phi_on_iterated_dominance_frontier exPhiCfg exPhiDT () exDiamond exDiamondOut 10
    exPhiCfg_HW exPhiCfg_HP exPhiDT_Hfr exDiamond_HPW rfl "x" 3
    (@InIDF.base exPhiDT (initialWriters exPhiCfg exDiamond "x") 1 3
      ⟨⟨["x"], []⟩, rfl, by simp [exPhiCfg]⟩ (by simp [exPhiDT]))

/-! ### Claim C7: pop-order independence of phi placement -/

theorem phiLoop_sound (cfg : SSAConfig) (dt : DominatorTree)
    (env : cfg.Environment) (choose : Nat → List Nat → Nat)
    (HW : ∀ b v x, x ∈ cfg.variables_written (cfg.insert_phi_statement b v env) ↔
      x = v ∨ x ∈ cfg.variables_written b)
    (HP : ∀ b v x, cfg.has_phi_statement (cfg.insert_phi_statement b v env) x = true ↔
      x = v ∨ cfg.has_phi_statement b x = true)
    (N : Nat)
    (Hfr : ∀ i j, j ∈ dt.get_dominance_frontier i → j < N)
    (J K : Nat → String → Prop)
    (Hclose : ∀ (i j : Nat) (x : String),
      K i x → j ∈ dt.get_dominance_frontier i → J j x ∧ K j x) :
    ∀ (fuel : Nat) (wl : List Nat) (blocks final : List cfg.BasicBlock),
      blocks.length = N →
      (∀ (i : Nat) (bi : cfg.BasicBlock) (x : String), blocks[i]? = some bi →
        (x ∈ cfg.variables_written bi → K i x) ∧
        (cfg.has_phi_statement bi x = true → J i x)) →
      insertPhiLoopAny cfg dt env choose fuel wl blocks = some final →
      ∀ (i : Nat) (bi : cfg.BasicBlock) (x : String), final[i]? = some bi →
        (x ∈ cfg.variables_written bi → K i x) ∧
        (cfg.has_phi_statement bi x = true → J i x) := by
  intro fuel
  induction fuel with
  | zero => intro wl blocks final _ _ h; simp [insertPhiLoopAny] at h
  | succ fuel ih =>
    intro wl blocks final hlen hJK h
    cases wl with
    | nil =>
      have hbf : blocks = final := by simpa [insertPhiLoopAny] using h
      subst hbf
      exact hJK
    | cons w t =>
      have hplt : choose fuel (w :: t) % (w :: t).length < (w :: t).length :=
        Nat.mod_lt _ (Nat.succ_pos _)
      set cur := (w :: t).getD (choose fuel (w :: t) % (w :: t).length) w with hcurdef
      cases hb : blocks[cur]? with
      | none =>
        rw [insertPhiLoopAny_cons_none cfg dt env choose fuel w t blocks hb] at h
        simp at h
      | some b =>
        rw [insertPhiLoopAny_cons_some cfg dt env choose fuel w t blocks b hb] at h
        cases hvw : (cfg.variables_written b).isEmpty with
        | true =>
          rw [if_pos hvw] at h
          exact ih _ blocks final hlen hJK h
        | false =>
          rw [if_neg (by simp [hvw])] at h
          obtain ⟨blocks2, wl2, hPF, hlen2, _hwlmono, _hwlnew, hidx, _hcov⟩ :=
            processFrontier_spec cfg env HW HP (cfg.variables_written b)
              (dt.get_dominance_frontier cur) blocks
              ((w :: t).eraseIdx (choose fuel (w :: t) % (w :: t).length))
              (by intro u hu; rw [hlen]; exact Hfr cur u hu)
          rw [hPF] at h
          have h2 : insertPhiLoopAny cfg dt env choose fuel wl2 blocks2 = some final := h
          have hlen2' : blocks2.length = N := by rw [hlen2, hlen]
          have hJK2 : ∀ (i : Nat) (bi2 : cfg.BasicBlock) (x : String),
              blocks2[i]? = some bi2 →
              (x ∈ cfg.variables_written bi2 → K i x) ∧
              (cfg.has_phi_statement bi2 x = true → J i x) := by
            intro i bi2 x hbi2
            obtain ⟨hlt2, _⟩ := List.getElem?_eq_some.mp hbi2
            have hiN : i < blocks.length := by rw [← hlen2]; exact hlt2
            have hbi : blocks[i]? = some blocks[i] := List.getElem?_eq_getElem hiN
            obtain ⟨bi2', hbi2', _, _, _, hwnewvw, hphinew, hunch, _⟩ :=
              hidx i blocks[i] hbi
            have hbe : bi2' = bi2 := by
              rw [hbi2'] at hbi2; exact Option.some.inj hbi2
            subst hbe
            have hKcur : ∀ y, y ∈ cfg.variables_written b → K cur y :=
              fun y hy => (hJK cur b y hb).1 hy
            by_cases hif : i ∈ dt.get_dominance_frontier cur
            · constructor
              · intro hx
                rcases hwnewvw x hx with hxold | hxvw
                · exact (hJK i blocks[i] x hbi).1 hxold
                · exact (Hclose cur i x (hKcur x hxvw) hif).2
              · intro hx
                rcases hphinew x hx with hxold | hxvw
                · exact (hJK i blocks[i] x hbi).2 hxold
                · exact (Hclose cur i x (hKcur x hxvw) hif).1
            · rw [hunch hif]
              exact hJK i blocks[i] x hbi
          exact ih wl2 blocks2 final hlen2' hJK2 h2

theorem phiLoop_characterization (cfg : SSAConfig) (dt : DominatorTree)
    (env : cfg.Environment) (choose : Nat → List Nat → Nat) (fuel : Nat)
    (blocks final : List cfg.BasicBlock)
    (HW : ∀ b v x, x ∈ cfg.variables_written (cfg.insert_phi_statement b v env) ↔
      x = v ∨ x ∈ cfg.variables_written b)
    (HP : ∀ b v x, cfg.has_phi_statement (cfg.insert_phi_statement b v env) x = true ↔
      x = v ∨ cfg.has_phi_statement b x = true)
    (Hfr : ∀ i j, j ∈ dt.get_dominance_frontier i → j < blocks.length)
    (HPW : ∀ (i : Nat) (bi : cfg.BasicBlock), blocks[i]? = some bi → PhisAreWritten cfg bi)
    (hrun : insertPhiLoopAny cfg dt env choose fuel
      (List.range blocks.length).reverse blocks = some final) :
    final.length = blocks.length ∧
    ∀ (j : Nat) (bj2 : cfg.BasicBlock) (x : String), final[j]? = some bj2 →
      (cfg.has_phi_statement bj2 x = true ↔
        (∃ bj, blocks[j]? = some bj ∧ cfg.has_phi_statement bj x = true) ∨
        InIDF dt (initialWriters cfg blocks x) j) := by
  have hINV0 : ∀ (i : Nat) (bi : cfg.BasicBlock) (x : String) (j : Nat),
      blocks[i]? = some bi → x ∈ cfg.variables_written bi →
      j ∈ dt.get_dominance_frontier i →
      i ∈ (List.range blocks.length).reverse ∨
        ∃ bj, blocks[j]? = some bj ∧ cfg.has_phi_statement bj x = true := by
    intro i bi x j hbi _hx _hj
    obtain ⟨hlt, _⟩ := List.getElem?_eq_some.mp hbi
    exact Or.inl (by rw [List.mem_reverse, List.mem_range]; exact hlt)
  obtain ⟨hlenF, _hPWF, _hINVF, hmonoF⟩ :=
    phiLoop_invariant cfg dt env choose HW HP blocks.length Hfr fuel
      (List.range blocks.length).reverse blocks final rfl HPW hINV0 hrun
  refine ⟨hlenF, ?_⟩
  intro j bj2 x hbj2
  constructor
  · intro hphi
    have hclose : ∀ (i2 j2 : Nat) (x2 : String),
        (initialWriters cfg blocks x2 i2 ∨ InIDF dt (initialWriters cfg blocks x2) i2) →
        j2 ∈ dt.get_dominance_frontier i2 →
        ((∃ bj, blocks[j2]? = some bj ∧ cfg.has_phi_statement bj x2 = true) ∨
          InIDF dt (initialWriters cfg blocks x2) j2) ∧
        (initialWriters cfg blocks x2 j2 ∨ InIDF dt (initialWriters cfg blocks x2) j2) := by
      intro i2 j2 x2 hK hj2
      rcases hK with hWr | hI
      · exact ⟨Or.inr (InIDF.base hWr hj2), Or.inr (InIDF.base hWr hj2)⟩
      · exact ⟨Or.inr (InIDF.step hI hj2), Or.inr (InIDF.step hI hj2)⟩
    have hinit : ∀ (i2 : Nat) (bi : cfg.BasicBlock) (x2 : String),
        blocks[i2]? = some bi →
        (x2 ∈ cfg.variables_written bi →
          (initialWriters cfg blocks x2 i2 ∨ InIDF dt (initialWriters cfg blocks x2) i2)) ∧
        (cfg.has_phi_statement bi x2 = true →
          ((∃ bj, blocks[i2]? = some bj ∧ cfg.has_phi_statement bj x2 = true) ∨
            InIDF dt (initialWriters cfg blocks x2) i2)) := by
      intro i2 bi x2 hbi
      exact ⟨fun hx => Or.inl ⟨bi, hbi, hx⟩, fun hx => Or.inl ⟨bi, hbi, hx⟩⟩
    have hsound := phiLoop_sound cfg dt env choose HW HP blocks.length Hfr
      (fun j2 x2 => (∃ bj, blocks[j2]? = some bj ∧ cfg.has_phi_statement bj x2 = true) ∨
        InIDF dt (initialWriters cfg blocks x2) j2)
      (fun i2 x2 => initialWriters cfg blocks x2 i2 ∨
        InIDF dt (initialWriters cfg blocks x2) i2)
      hclose fuel (List.range blocks.length).reverse blocks final rfl hinit hrun
    exact (hsound j bj2 x hbj2).2 hphi
  · intro hcase
    rcases hcase with ⟨bj, hbj, hphi⟩ | hidf
    · obtain ⟨bj2', hbj2', _, hphm⟩ := hmonoF j bj hbj
      have hbe : bj2' = bj2 := by rw [hbj2'] at hbj2; exact Option.some.inj hbj2
      subst hbe
      exact hphm x hphi
    · obtain ⟨bj', hbj', hphi'⟩ :=
        phiLoop_idf_covered cfg dt env choose HW HP blocks.length Hfr fuel
          (List.range blocks.length).reverse blocks final rfl HPW hINV0 hrun x j hidf
      have hbe : bj' = bj2 := by rw [hbj'] at hbj2; exact Option.some.inj hbj2
      subst hbe
      exact hphi'

/-- C7: two runs of the phi-placement work-list loop on the same block array
and dominator tree that pop work-list items at different positions (any two
position selectors; the program's own `Vec::pop` is the constant selector 0,
which is what `insert_phi_statements` uses) and both reach the empty work
list produce the same set of (block, variable) phi placements: a block of
one final array has a phi statement for a variable exactly when the
corresponding block of the other does. -/
theorem c7_pop_order_independent (cfg : SSAConfig) (dt : DominatorTree)
    (env : cfg.Environment) (blocks final1 final2 : List cfg.BasicBlock)
    (choose1 choose2 : Nat → List Nat → Nat) (fuel1 fuel2 : Nat) (j : Nat) (x : String)
    (HW : ∀ b v x, x ∈ cfg.variables_written (cfg.insert_phi_statement b v env) ↔
      x = v ∨ x ∈ cfg.variables_written b)
    (HP : ∀ b v x, cfg.has_phi_statement (cfg.insert_phi_statement b v env) x = true ↔
      x = v ∨ cfg.has_phi_statement b x = true)
    (Hfr : ∀ i j2, j2 ∈ dt.get_dominance_frontier i → j2 < blocks.length)
    (HPW : ∀ (i : Nat) (bi : cfg.BasicBlock), blocks[i]? = some bi → PhisAreWritten cfg bi)
    (h1 : insertPhiLoopAny cfg dt env choose1 fuel1
      (List.range blocks.length).reverse blocks = some final1)
    (h2 : insertPhiLoopAny cfg dt env choose2 fuel2
      (List.range blocks.length).reverse blocks = some final2) :
    ((∃ b1, final1[j]? = some b1 ∧ cfg.has_phi_statement b1 x = true) ↔
      (∃ b2, final2[j]? = some b2 ∧ cfg.has_phi_statement b2 x = true)) := by
  obtain ⟨hlen1, hc1⟩ :=
    phiLoop_characterization cfg dt env choose1 fuel1 blocks final1 HW HP Hfr HPW h1
  obtain ⟨hlen2, hc2⟩ :=
    phiLoop_characterization cfg dt env choose2 fuel2 blocks final2 HW HP Hfr HPW h2
  constructor
  · rintro ⟨b1, hb1, hphi1⟩
    obtain ⟨hlt, _⟩ := List.getElem?_eq_some.mp hb1
    have hjlt : j < final2.length := by
      rw [hlen2]; rw [hlen1] at hlt; exact hlt
    have hb2 : final2[j]? = some final2[j] := List.getElem?_eq_getElem hjlt
    exact ⟨final2[j], hb2, (hc2 j final2[j] x hb2).mpr ((hc1 j b1 x hb1).mp hphi1)⟩
  · rintro ⟨b2, hb2, hphi2⟩
    obtain ⟨hlt, _⟩ := List.getElem?_eq_some.mp hb2
    have hjlt : j < final1.length := by
      rw [hlen1]; rw [hlen2] at hlt; exact hlt
    have hb1 : final1[j]? = some final1[j] := List.getElem?_eq_getElem hjlt
    exact ⟨final1[j], hb1, (hc1 j final1[j] x hb1).mpr ((hc2 j b2 x hb2).mp hphi2)⟩

/-- Witness for C7: on the diamond CFG, the run popping the most recently
pushed item (the program's order) and a run popping at position 1 both
complete, and agree on the phi placement at the join block 3. -/
theorem c7_witness :
    ((∃ b1, exDiamondOut[3]? = some b1 ∧ exPhiCfg.has_phi_statement b1 "x" = true) ↔
      (∃ b2, exDiamondOut[3]? = some b2 ∧ exPhiCfg.has_phi_statement b2 "x" = true)) :=
  c7_pop_order_independent exPhiCfg exPhiDT () exDiamond exDiamondOut exDiamondOut
    (fun _ _ => 0) (fun _ _ => 1) 10 10 3 "x"
    exPhiCfg_HW exPhiCfg_HP exPhiDT_Hfr exDiamond_HPW rfl rfl

/-! ### Claim C8: termination of phi placement -/

theorem insertPhisForVars_count (cfg : SSAConfig) (env : cfg.Environment) (j : Nat)
    (HP : ∀ b v x, cfg.has_phi_statement (cfg.insert_phi_statement b v env) x = true ↔
      x = v ∨ cfg.has_phi_statement b x = true)
    (U : Finset String) :
    ∀ (vars : List String) (b : cfg.BasicBlock) (wl : List Nat),
      (∀ v ∈ vars, v ∈ U) →
      ∃ k, (insertPhisForVars cfg env j vars b wl).2 = List.replicate k j ++ wl ∧
        missingPhis cfg U (insertPhisForVars cfg env j vars b wl).1 + k
          = missingPhis cfg U b ∧
        (k = 0 → (insertPhisForVars cfg env j vars b wl).1 = b) := by
  intro vars
  induction vars with
  | nil =>
    intro b wl _
    exact ⟨0, by simp [insertPhisForVars], by simp [insertPhisForVars], fun _ => rfl⟩
  | cons v rest ih =>
    intro b wl hU
    cases hpv : cfg.has_phi_statement b v with
    | true =>
      rw [insertPhisForVars_cons_pos cfg env j v rest b wl hpv]
      exact ih b wl (fun u hu => hU u (List.mem_cons.mpr (Or.inr hu)))
    | false =>
      rw [insertPhisForVars_cons_neg cfg env j v rest b wl hpv]
      obtain ⟨k, hwl, hmiss, _hzero⟩ :=
        ih (cfg.insert_phi_statement b v env) (j :: wl)
          (fun u hu => hU u (List.mem_cons.mpr (Or.inr hu)))
      have hvU : v ∈ U := hU v (List.mem_cons.mpr (Or.inl rfl))
      have hins : missingPhis cfg U (cfg.insert_phi_statement b v env) + 1
          = missingPhis cfg U b := by
        have hfe : U.filter
            (fun x => cfg.has_phi_statement (cfg.insert_phi_statement b v env) x = false)
            = (U.filter (fun x => cfg.has_phi_statement b x = false)).erase v := by
          ext y
          simp only [Finset.mem_erase, Finset.mem_filter]
          constructor
          · rintro ⟨hyU, hyf⟩
            have hnot : ¬(y = v ∨ cfg.has_phi_statement b y = true) := by
              rw [← HP b v y]; simp [hyf]
            push_neg at hnot
            exact ⟨hnot.1, hyU, by simpa using hnot.2⟩
          · rintro ⟨hyv, hyU, hyb⟩
            refine ⟨hyU, ?_⟩
            have hnot : ¬(cfg.has_phi_statement (cfg.insert_phi_statement b v env) y = true) := by
              rw [HP b v y]
              push_neg
              exact ⟨hyv, by simp [hyb]⟩
            simpa using hnot
        have hvmem : v ∈ U.filter (fun x => cfg.has_phi_statement b x = false) :=
          Finset.mem_filter.mpr ⟨hvU, hpv⟩
        have hpos : 0 < (U.filter (fun x => cfg.has_phi_statement b x = false)).card :=
          Finset.card_pos.mpr ⟨v, hvmem⟩
        rw [missingPhis, missingPhis, hfe, Finset.card_erase_of_mem hvmem]
        omega
      refine ⟨k + 1, ?_, by omega, ?_⟩
      · rw [hwl, List.replicate_succ', List.append_assoc]
        rfl
      · intro hk; exact absurd hk (Nat.succ_ne_zero k)

theorem missTotal_set (cfg : SSAConfig) (U : Finset String) :
    ∀ (blocks : List cfg.BasicBlock) (j : Nat) (bj b2 : cfg.BasicBlock) (k : Nat),
      blocks[j]? = some bj → missingPhis cfg U b2 + k = missingPhis cfg U bj →
      missTotal cfg U (blocks.set j b2) + k = missTotal cfg U blocks := by
  intro blocks
  induction blocks with
  | nil => intro j bj b2 k h; simp at h
  | cons a t ih =>
    intro j bj b2 k h hm
    cases j with
    | zero =>
      simp at h
      subst h
      simp [missTotal]
      omega
    | succ j =>
      simp at h
      have := ih j bj b2 k h hm
      simp [missTotal] at this ⊢
      omega

theorem processFrontier_count (cfg : SSAConfig) (env : cfg.Environment)
    (HW : ∀ b v x, x ∈ cfg.variables_written (cfg.insert_phi_statement b v env) ↔
      x = v ∨ x ∈ cfg.variables_written b)
    (HP : ∀ b v x, cfg.has_phi_statement (cfg.insert_phi_statement b v env) x = true ↔
      x = v ∨ cfg.has_phi_statement b x = true)
    (U : Finset String) (vw : List String) (hvwU : ∀ v ∈ vw, v ∈ U) :
    ∀ (fr : List Nat) (blocks : List cfg.BasicBlock) (wl : List Nat),
      (∀ j ∈ fr, j < blocks.length) →
      ∃ blocks2 wl2 k,
        processFrontier cfg env vw fr blocks wl = some (blocks2, wl2) ∧
        blocks2.length = blocks.length ∧
        wl2.length = k + wl.length ∧
        missTotal cfg U blocks2 + k = missTotal cfg U blocks ∧
        (k = 0 → blocks2 = blocks ∧ wl2 = wl) ∧
        (∀ i, i ∈ wl2 → i ∈ wl ∨ i ∈ fr) ∧
        (∀ (i : Nat) (bi : cfg.BasicBlock), blocks[i]? = some bi →
          ∃ bi2, blocks2[i]? = some bi2 ∧
            (∀ x, x ∈ cfg.variables_written bi2 →
              x ∈ cfg.variables_written bi ∨ x ∈ vw)) := by
  intro fr
  induction fr with
  | nil =>
    intro blocks wl _
    refine ⟨blocks, wl, 0, rfl, rfl, by simp, by simp, fun _ => ⟨rfl, rfl⟩,
      fun i h => Or.inl h, ?_⟩
    intro i bi hbi
    exact ⟨bi, hbi, fun x h => Or.inl h⟩
  | cons j rest ih =>
    intro blocks wl hr
    have hj : j < blocks.length := hr j (by simp)
    have hbj : blocks[j]? = some blocks[j] := List.getElem?_eq_getElem hj
    obtain ⟨k1, hwl1, hmiss1, hzero1⟩ :=
      insertPhisForVars_count cfg env j HP U vw blocks[j] wl hvwU
    obtain ⟨blocks2, wl2, k2, heq, hlen, hwllen, hmiss, hzero, hwlnew, hidx⟩ :=
      ih (blocks.set j (insertPhisForVars cfg env j vw blocks[j] wl).1)
        (insertPhisForVars cfg env j vw blocks[j] wl).2
        (by intro u hu; simpa [List.length_set] using hr u (by simp [hu]))
    have hset := missTotal_set cfg U blocks j blocks[j]
      (insertPhisForVars cfg env j vw blocks[j] wl).1 k1 hbj hmiss1
    refine ⟨blocks2, wl2, k2 + k1, ?_, ?_, ?_, by omega, ?_, ?_, ?_⟩
    · rw [processFrontier_cons cfg env vw j rest blocks wl blocks[j] hbj]
      exact heq
    · rw [hlen, List.length_set]
    · rw [hwllen, hwl1]
      simp [List.length_replicate]
      omega
    · intro hk
      have hk1 : k1 = 0 := by omega
      have hk2 : k2 = 0 := by omega
      have hfb : (insertPhisForVars cfg env j vw blocks[j] wl).1 = blocks[j] := hzero1 hk1
      have hbl : blocks.set j (insertPhisForVars cfg env j vw blocks[j] wl).1 = blocks := by
        rw [hfb]
        exact list_set_getElem?_self blocks j blocks[j] hbj
      have hwlj : (insertPhisForVars cfg env j vw blocks[j] wl).2 = wl := by
        rw [hwl1, hk1]
        simp
      obtain ⟨hb2, hw2⟩ := hzero hk2
      constructor
      · rw [hb2, hbl]
      · rw [hw2, hwlj]
    · intro i hi
      rcases hwlnew i hi with h | h
      · rw [hwl1] at h
        rcases List.mem_append.mp h with h2 | h2
        · exact Or.inr (by simp [(List.mem_replicate.mp h2).2])
        · exact Or.inl h2
      · exact Or.inr (by simp [h])
    · intro i bi hbi
      by_cases hij : i = j
      · subst hij
        have hbieq : bi = blocks[i] := by
          rw [hbj] at hbi; exact (Option.some.inj hbi).symm
        subst hbieq
        obtain ⟨bi2, hbi2, hsub⟩ :=
          hidx i (insertPhisForVars cfg env i vw blocks[i] wl).1
            (List.getElem?_set_eq_of_lt _ hj)
        refine ⟨bi2, hbi2, ?_⟩
        intro x hx
        rcases hsub x hx with h | h
        · exact ipv_written_new cfg env i HW vw blocks[i] wl x h
        · exact Or.inr h
      · have hsetne : (blocks.set j (insertPhisForVars cfg env j vw blocks[j] wl).1)[i]?
            = blocks[i]? := List.getElem?_set_ne (fun hh => hij hh.symm)
        exact hidx i bi (by rw [hsetne]; exact hbi)

theorem phiLoop_completes (cfg : SSAConfig) (dt : DominatorTree)
    (env : cfg.Environment) (c : List Nat → Nat)
    (HW : ∀ b v x, x ∈ cfg.variables_written (cfg.insert_phi_statement b v env) ↔
      x = v ∨ x ∈ cfg.variables_written b)
    (HP : ∀ b v x, cfg.has_phi_statement (cfg.insert_phi_statement b v env) x = true ↔
      x = v ∨ cfg.has_phi_statement b x = true)
    (U : Finset String) (N : Nat)
    (Hfr : ∀ i j, j ∈ dt.get_dominance_frontier i → j < N) :
    ∀ (m : Nat) (blocks : List cfg.BasicBlock),
      blocks.length = N →
      (∀ (i : Nat) (bi : cfg.BasicBlock), blocks[i]? = some bi →
        ∀ x ∈ cfg.variables_written bi, x ∈ U) →
      missTotal cfg U blocks ≤ m →
      ∀ (L : Nat) (wl : List Nat), wl.length ≤ L → (∀ i ∈ wl, i < N) →
      ∃ fuel final,
        insertPhiLoopAny cfg dt env (fun _ l => c l) fuel wl blocks = some final := by
  intro m
  induction m using Nat.strong_induction_on with
  | _ m ihm =>
    intro blocks hlen hU hmiss L
    induction L with
    | zero =>
      intro wl hwl _
      have hnil : wl = [] := List.eq_nil_of_length_eq_zero (Nat.le_zero.mp hwl)
      subst hnil
      exact ⟨1, blocks, rfl⟩
    | succ L ihL =>
      intro wl hwl hrange
      cases wl with
      | nil => exact ⟨1, blocks, rfl⟩
      | cons w t =>
        have hplt : c (w :: t) % (w :: t).length < (w :: t).length :=
          Nat.mod_lt _ (Nat.succ_pos _)
        have hcmem : (w :: t).getD (c (w :: t) % (w :: t).length) w ∈ w :: t :=
          list_getD_mem _ _ _ hplt
        have hclt : (w :: t).getD (c (w :: t) % (w :: t).length) w < blocks.length := by
          rw [hlen]; exact hrange _ hcmem
        have hb : blocks[(w :: t).getD (c (w :: t) % (w :: t).length) w]?
            = some blocks[(w :: t).getD (c (w :: t) % (w :: t).length) w] :=
          List.getElem?_eq_getElem hclt
        have hrestlen : ((w :: t).eraseIdx (c (w :: t) % (w :: t).length)).length ≤ L := by
          have := List.length_eraseIdx_add_one hplt
          omega
        have hrestrange : ∀ i, i ∈ (w :: t).eraseIdx (c (w :: t) % (w :: t).length) →
            i < N := fun i hi => hrange i (list_mem_of_mem_eraseIdx _ _ i hi)
        cases hvw : (cfg.variables_written
            blocks[(w :: t).getD (c (w :: t) % (w :: t).length) w]).isEmpty with
        | true =>
          obtain ⟨fuel, final, hf⟩ := ihL _ hrestlen hrestrange
          refine ⟨fuel + 1, final, ?_⟩
          rw [insertPhiLoopAny_cons_some cfg dt env (fun _ l => c l) fuel w t blocks _ hb,
            if_pos hvw]
          exact hf
        | false =>
          obtain ⟨blocks2, wl2, k, hPF, hlen2, hwllen, hmiss2, hzero, hwlnew, hidx⟩ :=
            processFrontier_count cfg env HW HP U
              (cfg.variables_written blocks[(w :: t).getD (c (w :: t) % (w :: t).length) w])
              (fun v hv => hU _ _ hb v hv)
              (dt.get_dominance_frontier ((w :: t).getD (c (w :: t) % (w :: t).length) w))
              blocks ((w :: t).eraseIdx (c (w :: t) % (w :: t).length))
              (by intro u hu; rw [hlen]; exact Hfr _ u hu)
          by_cases hk : k = 0
          · obtain ⟨hb2, hw2⟩ := hzero hk
            obtain ⟨fuel, final, hf⟩ := ihL _ hrestlen hrestrange
            refine ⟨fuel + 1, final, ?_⟩
            rw [insertPhiLoopAny_cons_some cfg dt env (fun _ l => c l) fuel w t blocks _ hb,
              if_neg (by rw [hvw]; simp), hPF]
            show insertPhiLoopAny cfg dt env (fun _ l => c l) fuel wl2 blocks2 = some final
            rw [hw2, hb2]
            exact hf
          · have hkle : k ≤ missTotal cfg U blocks := by omega
            have hm1 : 1 ≤ m := by omega
            have hU2 : ∀ (i : Nat) (bi2 : cfg.BasicBlock), blocks2[i]? = some bi2 →
                ∀ x ∈ cfg.variables_written bi2, x ∈ U := by
              intro i bi2 hbi2 x hx
              obtain ⟨hlt2, _⟩ := List.getElem?_eq_some.mp hbi2
              have hiN : i < blocks.length := by rw [← hlen2]; exact hlt2
              have hbi : blocks[i]? = some blocks[i] := List.getElem?_eq_getElem hiN
              obtain ⟨bi2', hbi2', hsub⟩ := hidx i blocks[i] hbi
              have hbe : bi2' = bi2 := by
                rw [hbi2'] at hbi2; exact Option.some.inj hbi2
              subst hbe
              rcases hsub x hx with h | h
              · exact hU i blocks[i] hbi x h
              · exact hU _ _ hb x h
            have hrange2 : ∀ i ∈ wl2, i < N := by
              intro i hi
              rcases hwlnew i hi with h | h
              · exact hrestrange i h
              · exact Hfr _ i h
            obtain ⟨fuel, final, hf⟩ :=
              ihm (m - 1) (by omega) blocks2 (by rw [hlen2, hlen]) hU2 (by omega)
                wl2.length wl2 le_rfl hrange2
            refine ⟨fuel + 1, final, ?_⟩
            rw [insertPhiLoopAny_cons_some cfg dt env (fun _ l => c l) fuel w t blocks _ hb,
              if_neg (by rw [hvw]; simp), hPF]
            exact hf

/-- C8: on every CFG with a valid dominator tree (all dominance-frontier
indices in range), the phi-placement work list empties after finitely many
iterations: a block is re-pushed only when a phi statement is newly inserted
for a (block, variable) pair that lacked one, and the number of free slots
(bounded by blocks times written variables) shrinks with every such
insertion, so some finite fuel makes `insert_phi_statements` return
normally. -/
theorem c8_insert_phi_statements_terminates (cfg : SSAConfig) (dt : DominatorTree)
    (env : cfg.Environment) (blocks : List cfg.BasicBlock)
    (HW : ∀ b v x, x ∈ cfg.variables_written (cfg.insert_phi_statement b v env) ↔
      x = v ∨ x ∈ cfg.variables_written b)
    (HP : ∀ b v x, cfg.has_phi_statement (cfg.insert_phi_statement b v env) x = true ↔
      x = v ∨ cfg.has_phi_statement b x = true)
    (Hfr : ∀ i j, j ∈ dt.get_dominance_frontier i → j < blocks.length) :
    ∃ fuel final, insert_phi_statements cfg blocks dt env fuel = some final := by
  have hU : ∀ (i : Nat) (bi : cfg.BasicBlock), blocks[i]? = some bi →
      ∀ x ∈ cfg.variables_written bi,
        x ∈ ((blocks.map cfg.variables_written).flatten).toFinset := by
    intro i bi hbi x hx
    rw [List.mem_toFinset]
    exact List.mem_flatten.mpr
      ⟨cfg.variables_written bi,
        List.mem_map_of_mem cfg.variables_written (List.getElem?_mem hbi), hx⟩
  obtain ⟨fuel, final, hf⟩ :=
    phiLoop_completes cfg dt env (fun _ => 0) HW HP
      ((blocks.map cfg.variables_written).flatten).toFinset blocks.length Hfr
      (missTotal cfg ((blocks.map cfg.variables_written).flatten).toFinset blocks)
      blocks rfl hU le_rfl
      (List.range blocks.length).reverse.length (List.range blocks.length).reverse le_rfl
      (by intro i hi; rw [List.mem_reverse, List.mem_range] at hi; exact hi)
  exact ⟨fuel, final, hf⟩

/-- Witness for C8: phi placement terminates on the diamond CFG. -/
theorem c8_witness :
    ∃ fuel final, insert_phi_statements exPhiCfg exDiamond exPhiDT () fuel = some final :=
  c8_insert_phi_statements_terminates exPhiCfg exPhiDT () exDiamond
    exPhiCfg_HW exPhiCfg_HP exPhiDT_Hfr

end Circomspect
